import Mathlib

/-!
# Verification of `torch_spex.spherical_expansions`

Shallow embedding of the two core components of the repository,
`VectorExpansion.forward` and `SphericalExpansion.forward`
(file `src/torch_spex/spherical_expansions.py`), together with the helper
`get_cartesian_vectors`.

Modelling conventions:
* tensors of floats are modelled as (nested) lists over `ℚ`;
* integer tensors are `List Nat` / `List Int`;
* the two external providers (radial basis, spherical harmonics) are opaque
  function parameters, constrained only by their shape contracts;
  since the radial provider is opaque, it is parameterized by the squared
  distance (the composition with the square root of the source is folded
  into the opaque provider, which cannot be expressed over `ℚ`);
* the one fallible operation of the aggregator — the Python dictionary
  lookup `species_to_index[aj_index]`, which raises `KeyError` on an
  unknown neighbor species — is modelled with `Option`; the whole
  `SphericalExpansion.forward` therefore returns an `Option`;
* in-bounds tensor indexing is modelled with `List.getD`; theorems carry
  explicit in-range hypotheses wherever the source would have indexed.
-/

namespace TorchSpex

abbrev Vec := List ℚ

/-- A rectangular slab `[components, properties]`, one row of a 3-D block. -/
abbrev Mat := List Vec

/-- Inclusive prefix sums, modelling `torch.cumsum(·, 0)` on a 1-D tensor. -/
def cumsum (xs : List Nat) : List Nat :=
  (List.range xs.length).map (fun i => (xs.take (i+1)).sum)

/-- The sorted list of distinct values of `xs`, i.e. the first return value of
`torch.unique`. -/
def uniqueSorted (xs : List Nat) : List Nat :=
  (List.range (xs.foldr max 0 + 1)).filter (fun v => v ∈ xs)

/-- The counts returned by `torch.unique(xs, return_counts=True)`:
for each distinct value in sorted order, its multiplicity in `xs`. -/
def uniqueCounts (xs : List Nat) : List Nat :=
  (uniqueSorted xs).map (fun v => xs.count v)

/-- The inverse indices returned by `torch.unique(xs, return_inverse=True)`:
for every element of `xs`, its position in the sorted distinct-value list. -/
def inverseIdx (xs : List Nat) : List Nat :=
  xs.map (fun x => (uniqueSorted xs).indexOf x)

/-- `centers_offsets_per_structure = torch.hstack((tensor([0]),
centers_count_per_structure[:-1])).cumsum(0)` (source lines 148 and 385). -/
def centers_offsets_per_structure (structure_centers : List Nat) : List Nat :=
  cumsum (0 :: (uniqueCounts structure_centers).dropLast)

/-- `pairs_offset = centers_offsets_per_structure[inverse_idx]`
(source lines 149 and 386): the per-pair center-index offset, gathered
through the inverse indices of `torch.unique(structure_pairs)`. -/
def pairs_offset (structure_centers structure_pairs : List Nat) : List Nat :=
  (inverseIdx structure_pairs).map
    (fun i => (centers_offsets_per_structure structure_centers).getD i 0)

/-- `s_i_metadata_to_unique = pairs[:, 0] + pairs_offset` (source line 150):
the flat aggregation index of each pair's center. -/
def s_i_metadata_to_unique (structure_centers structure_pairs : List Nat)
    (pairs : List (Nat × Nat)) : List Nat :=
  List.zipWith (fun pr off => pr.1 + off) pairs
    (pairs_offset structure_centers structure_pairs)

/-- One sample row of the block returned by `get_cartesian_vectors`:
`["structure", "center", "neighbor", "species_center", "species_neighbor",
"cell_x", "cell_y", "cell_z"]`. -/
structure PairMeta where
  structureId : Nat
  center : Nat
  neighbor : Nat
  species_center : Int
  species_neighbor : Int
  cell : Int × Int × Int
  deriving Repr, DecidableEq, Inhabited

/-- The block built by `get_cartesian_vectors` (source lines 374-422):
the direction vectors, unchanged and in input pair order, plus one metadata
sample row per pair. -/
structure CartBlock where
  values : List (ℚ × ℚ × ℚ)
  samples : List PairMeta
  deriving Repr, DecidableEq, Inhabited

/-- `get_cartesian_vectors` (source lines 374-422).  The species of the two
endpoints are read at the locally-numbered pair indices shifted by
`pairs_offset`. -/
def get_cartesian_vectors (species : List Int)
    (cell_shifts : List (Int × Int × Int))
    (pairs : List (Nat × Nat)) (structure_centers structure_pairs : List Nat)
    (direction_vectors : List (ℚ × ℚ × ℚ)) : CartBlock :=
  { values := direction_vectors
    samples := (List.range pairs.length).map (fun p =>
      let off := (pairs_offset structure_centers structure_pairs).getD p 0
      let pr := pairs.getD p (0, 0)
      { structureId := structure_pairs.getD p 0
        center := pr.1
        neighbor := pr.2
        species_center := species.getD (pr.1 + off) 0
        species_neighbor := species.getD (pr.2 + off) 0
        cell := cell_shifts.getD p (0, 0, 0) }) }

/-- Squared Euclidean norm of a direction vector; the source computes
`r = sqrt((v**2).sum(-1))` and hands `r` to the (opaque) radial provider. -/
def normSq (v : ℚ × ℚ × ℚ) : ℚ := v.1 * v.1 + v.2.1 * v.2.1 + v.2.2 * v.2.2

/-- The property labels of a `VectorExpansion` degree block: column labels
`["n"]` in standard mode, `["alpha_j", "n"]` in alchemical mode. -/
inductive VEProps where
  | std (ns : List Nat)
  | alch (rows : List (Int × Nat))
  deriving Repr, DecidableEq, Inhabited

/-- The `"n"` column of the property labels of a `VectorExpansion` block. -/
def VEProps.nColumn : VEProps → List Nat
  | .std ns => ns
  | .alch rows => rows.map Prod.snd

/-- One degree-`l` block of the `TensorMap` returned by
`VectorExpansion.forward`: values `[pairs, 2l+1, properties]`, sample labels
(one per pair), component labels `m ∈ [-l, l]`, property labels. -/
structure VEBlock where
  values : List Mat
  samples : List PairMeta
  components : List Int
  properties : VEProps
  deriving Repr, DecidableEq, Inhabited

/-- Construction-time configuration of the calculator, together with the two
opaque external providers (spec §6).  `sh l v` returns the `2l+1`
spherical-harmonic values of degree `l` for direction `v`; `radialD` /
`radialA` are the standard / alchemical radial-basis responses for one pair,
given the squared distance and the pair's sample metadata; `n_radial l` is
the radial channel count of degree `l` promised by the radial provider's
shape contract (the source reads it off the returned tensor's shape). -/
structure Calc where
  all_species : List Int
  l_max : Nat
  is_alchemical : Bool
  n_pseudo_species : Nat
  n_radial : Nat → Nat
  sh : Nat → (ℚ × ℚ × ℚ) → List ℚ
  radialD : Nat → ℚ → PairMeta → List ℚ
  radialA : Nat → ℚ → PairMeta → List (List ℚ)

/-- The provider shape contracts (spec §6): `2l+1` angular values per degree,
`n_radial l` radial channels per degree, and in alchemical mode an extra
leading pseudo-species axis of size `n_pseudo_species`. -/
def Calc.WellShaped (C : Calc) : Prop :=
  (∀ l v, (C.sh l v).length = 2 * l + 1) ∧
  (∀ l r2 meta, (C.radialD l r2 meta).length = C.n_radial l) ∧
  (∀ l r2 meta, (C.radialA l r2 meta).length = C.n_pseudo_species ∧
    ∀ row ∈ C.radialA l r2 meta, row.length = C.n_radial l)

/-- One row (pair) of the degree-`l` values of `VectorExpansion.forward`
(source lines 329-351): the broadcast product
`radial_basis_l[:, None, :] * spherical_harmonics_l[:, :, None]` in standard
mode, and `radial_basis_l[:, None, :, :] * sh[:, :, None, None]` followed by
the reshape to `[pairs, 2l+1, -1]` (pseudo-species-major, radial-minor
flattening) in alchemical mode. -/
def veRow (C : Calc) (l : Nat) (v : ℚ × ℚ × ℚ) (meta : PairMeta) : Mat :=
  if C.is_alchemical then
    (C.sh l v).map (fun s =>
      ((C.radialA l (normSq v) meta).map (fun row => row.map (fun r => r * s))).flatten
    )
  else
    (C.sh l v).map (fun s => (C.radialD l (normSq v) meta).map (fun r => r * s))

/-- Component labels of a degree-`l` block: `m = −l, …, l`. -/
def mComponents (l : Nat) : List Int :=
  (List.range (2 * l + 1)).map (fun (k : Nat) => (k : Int) - (l : Int))

/-- Property labels attached by `VectorExpansion.forward`
(source lines 336-348): `Labels.range("n", n_max_l)` in standard mode;
`(alpha_j, n)` with `alpha_j = -0, -1, …` repeated `n_max_l` times each
(`np.repeat` species-major ordering) in alchemical mode. -/
def veProperties (C : Calc) (l : Nat) : VEProps :=
  if C.is_alchemical then
    .alch ((List.range C.n_pseudo_species).flatMap (fun k =>
      (List.range (C.n_radial l)).map (fun n => (-(k : Int), n))))
  else
    .std (List.range (C.n_radial l))

/-- `VectorExpansion.forward` (source lines 277-370): one block per degree
`l ∈ [0, l_max]`, block `l` holding one outer-product row per input pair, in
input pair order, with the `get_cartesian_vectors` sample metadata. -/
def vector_expansion (C : Calc) (species : List Int)
    (cell_shifts : List (Int × Int × Int)) (pairs : List (Nat × Nat))
    (structure_centers structure_pairs : List Nat)
    (direction_vectors : List (ℚ × ℚ × ℚ)) : List VEBlock :=
  let cart := get_cartesian_vectors species cell_shifts pairs
    structure_centers structure_pairs direction_vectors
  (List.range (C.l_max + 1)).map (fun l =>
    { values := (List.range pairs.length).map (fun p =>
        veRow C l (direction_vectors.getD p (0, 0, 0)) (cart.samples.getD p default))
      samples := cart.samples
      components := mComponents l
      properties := veProperties C l })

/-- `A + B` entrywise on rectangular slabs (the effect of one `index_add_`
update on one accumulator slot). -/
def matAdd (A B : Mat) : Mat := List.zipWith (List.zipWith (· + ·)) A B

/-- A zero slab of shape `[r, c]`. -/
def zerosMat (r c : Nat) : Mat := List.replicate r (List.replicate c 0)

/-- `acc.index_add_(dim=0, index=idx, source=src)` (source lines 165 and
181): add `src[p]` into slot `idx[p]` of `acc`, for every `p`, in order. -/
def index_add (acc : List Mat) (idx : List Nat) (src : List Mat) : List Mat :=
  (List.zip idx src).foldl
    (fun a q => a.set q.1 (matAdd (a.getD q.1 []) q.2)) acc

/-- One output block of `SphericalExpansion.forward`, keyed
`(a_i, lam, sigma)`, with values `[rows, 2l+1, properties]`, sample labels
`(structure, center)`, component labels `m`, property labels
`(a1, n1, l1)`. -/
structure SEBlock where
  a_i : Int
  lam : Nat
  sigma : Int
  values : List Mat
  samples : List (Nat × Nat)
  components : List Int
  properties : List (Int × Nat × Nat)
  deriving Repr, DecidableEq, Inhabited

/-- The `TensorMap` returned by `SphericalExpansion.forward`. -/
structure SETensorMap where
  keys : List (Int × Nat × Int)
  blocks : List SEBlock
  deriving Repr, DecidableEq, Inhabited

/-- `np.where(ai_new_indices == a_i)[0]` (source line 196): the ascending
list of atom indices whose species equals `a`. -/
def whereEq (species : List Int) (a : Int) : List Nat :=
  (List.range species.length).filter (fun i => species.getD i 0 = a)

/-- `vectors_l_block_n = np.arange(len(np.unique(vectors_l_block.properties["n"])))`
(source line 194). -/
def veBlockN (b : VEBlock) : List Nat :=
  List.range (uniqueSorted b.properties.nColumn).length

/-- The block-assembly loop of `SphericalExpansion.forward` (source lines
186-227): for each degree `l` (outer) and each center species `a_i` (inner),
select the center rows of that species, label them, and attach the
`(a1, n1, l1)` property labels (`np.repeat` of the species over the radial
channels: species-major, radial-minor). -/
def assembleBlocks (C : Calc) (species : List Int)
    (unique_s_i_indices : List (Nat × Nat)) (densities : List (List Mat))
    (expanded : List VEBlock) (unique_species : List Int) : SETensorMap :=
  { keys := (List.range (C.l_max + 1)).flatMap (fun l =>
      C.all_species.map (fun a => (a, l, (1 : Int))))
    blocks := (List.range (C.l_max + 1)).flatMap (fun l =>
      let densities_l := densities.getD l []
      let vectors_l_block_n := veBlockN (expanded.getD l default)
      C.all_species.map (fun a =>
        let where_ai := whereEq species a
        { a_i := a
          lam := l
          sigma := 1
          values := where_ai.map (fun i => densities_l.getD i [])
          samples := where_ai.map (fun i => unique_s_i_indices.getD i (0, 0))
          components := (expanded.getD l default).components
          properties := unique_species.flatMap (fun aj =>
            vectors_l_block_n.map (fun n => (aj, n, l))) })) }

/-- The neighbor-species channel lookups
`np.array([species_to_index[aj_index] for aj_index in aj_metadata])`
(source line 171): `none` when any lookup raises `KeyError`. -/
def aj_shifts? (C : Calc) (samples_metadata : List PairMeta)
    (npairs : Nat) : Option (List Nat) :=
  (List.range npairs).mapM (fun p =>
    C.all_species.indexOf? ((samples_metadata.getD p default).species_neighbor))

/-- The alchemical-branch density tensors (source lines 158-167): for each
degree, `index_add_` of the degree-`l` expanded vectors into a
zero-initialized `[n_centers, 2l+1, cols]` accumulator (the trailing
`reshape((n_centers, 2l+1, -1))` is a no-op). -/
def densities_alch (C : Calc) (expanded : List VEBlock)
    (density_indices : List Nat) (n_centers : Nat) : List (List Mat) :=
  (List.range (C.l_max + 1)).map (fun l =>
    index_add
      (List.replicate n_centers
        (zerosMat (2 * l + 1) (C.n_pseudo_species * C.n_radial l)))
      density_indices (expanded.getD l default).values)

/-- The discrete-branch accumulator before axis canonicalization (source
lines 176-181): `index_add_` into a zero-initialized
`[n_centers*n_species, 2l+1, n_radial]` tensor. -/
def disc_acc (C : Calc) (expanded : List VEBlock)
    (density_indices : List Nat) (n_centers n_species l : Nat) : List Mat :=
  index_add
    (List.replicate (n_centers * n_species)
      (zerosMat (2 * l + 1) (C.n_radial l)))
    density_indices (expanded.getD l default).values

/-- The discrete-branch density tensors (source lines 174-183), including
the axis canonicalization
`.reshape((n_centers, n_species, 2l+1, -1)).swapaxes(1, 2)
.reshape((n_centers, 2l+1, -1))` of source line 182: for center `c` and
order `m`, the row is the concatenation over the species channel `s` of row
`m` of accumulator slot `c*n_species + s`. -/
def densities_disc (C : Calc) (expanded : List VEBlock)
    (density_indices : List Nat) (n_centers n_species : Nat) :
    List (List Mat) :=
  (List.range (C.l_max + 1)).map (fun l =>
    let acc := disc_acc C expanded density_indices n_centers n_species l
    (List.range n_centers).map (fun c =>
      (List.range (2 * l + 1)).map (fun m =>
        ((List.range n_species).map (fun s =>
          ((acc.getD (c * n_species + s) []).getD m []))).flatten)))

/-- `SphericalExpansion.forward` (source lines 94-229).  Returns `none`
exactly when, in discrete-species mode, the dictionary lookup
`species_to_index[aj_index]` fails for some pair's neighbor-species
metadata (a Python `KeyError` in the source). -/
def spherical_expansion (C : Calc) (species : List Int)
    (cell_shifts : List (Int × Int × Int)) (centers : List Nat)
    (pairs : List (Nat × Nat)) (structure_centers structure_pairs : List Nat)
    (direction_vectors : List (ℚ × ℚ × ℚ)) : Option SETensorMap :=
  let expanded := vector_expansion C species cell_shifts pairs
    structure_centers structure_pairs direction_vectors
  let samples_metadata := (get_cartesian_vectors species cell_shifts pairs
    structure_centers structure_pairs direction_vectors).samples
  let n_species := C.all_species.length
  let unique_s_i_indices := List.zip structure_centers centers
  let sIMeta := s_i_metadata_to_unique structure_centers structure_pairs pairs
  let n_centers := centers.length
  if C.is_alchemical then
    let densities := densities_alch C expanded sIMeta n_centers
    let unique_species := (List.range C.n_pseudo_species).map (fun k => -(k : Int))
    some (assembleBlocks C species unique_s_i_indices densities expanded unique_species)
  else
    match aj_shifts? C samples_metadata pairs.length with
    | none => none
    | some aj_shifts =>
      let density_indices := List.zipWith
        (fun c s => c * n_species + s) sIMeta aj_shifts
      let densities := densities_disc C expanded density_indices
        n_centers n_species
      some (assembleBlocks C species unique_s_i_indices densities expanded C.all_species)

end TorchSpex

/-! ## Basic list lemmas -/

theorem getD_map_lt {α β : Type} (f : α → β) (l : List α) (p : Nat)
    (hp : p < l.length) (d : α) (d' : β) :
    (l.map f).getD p d' = f (l.getD p d) := by
  rw [List.getD_eq_getElem _ _ (by simpa using hp), List.getD_eq_getElem _ _ hp,
    List.getElem_map]

theorem getD_range_lt (n i : Nat) (hi : i < n) (d : Nat) :
    (List.range n).getD i d = i := by
  rw [List.getD_eq_getElem _ _ (by simpa using hi), List.getElem_range]

theorem flatten_getD {α : Type} (ls : List (List α)) (L : Nat)
    (h : ∀ x ∈ ls, x.length = L) (s n : Nat) (hs : s < ls.length) (hn : n < L)
    (d : α) :
    ls.flatten.getD (s * L + n) d = (ls.getD s []).getD n d := by
  induction ls generalizing s with
  | nil => simp at hs
  | cons x rest ih =>
    have hx : x.length = L := h x (by simp)
    cases s with
    | zero =>
      simp only [List.flatten_cons, List.getD_cons_zero, Nat.zero_mul, Nat.zero_add]
      rw [List.getD_eq_getElem (x ++ rest.flatten) d
          (by simp [hx]; omega), List.getElem_append_left (by omega),
        List.getD_eq_getElem _ _ (by omega)]
    | succ s' =>
      simp only [List.flatten_cons, List.getD_cons_succ]
      have harith : (s' + 1) * L + n = x.length + (s' * L + n) := by
        rw [hx]; ring
      rw [harith]
      have hfl : rest.flatten.length = (rest.map List.length).sum := by simp
      have hml : (rest.map List.length).sum = rest.length * L := by
        have hrep : rest.map List.length = List.replicate rest.length L := by
          rw [List.eq_replicate_iff]
          refine ⟨by simp, ?_⟩
          intro b hb
          obtain ⟨y, hy, rfl⟩ := List.mem_map.1 hb
          exact h y (by simp [hy])
        rw [hrep, List.sum_replicate, smul_eq_mul]
      have h1 : s' * L + n < (s' + 1) * L := by
        have he : (s' + 1) * L = s' * L + L := by ring
        omega
      have h2 : (s' + 1) * L ≤ rest.length * L :=
        Nat.mul_le_mul_right L (by simpa using hs)
      have hlt : s' * L + n < rest.flatten.length := by omega
      rw [List.getD_eq_getElem (x ++ rest.flatten) d (by simp; omega),
        List.getElem_append_right (by omega)]
      have := ih (fun y hy => h y (by simp [hy])) s' (by simpa using hs)
      rw [← List.getD_eq_getElem rest.flatten d (by omega)] at *
      simp only [Nat.add_sub_cancel_left]
      exact this

/-- `getD` into a `flatMap` over `List.range` whose inner lists all have the
same length `L`: position `l*L + s` reads element `s` of chunk `l`. -/
theorem flatMap_range_getD {α : Type} (N L : Nat) (g : Nat → List α)
    (hlen : ∀ l, l < N → (g l).length = L) (l s : Nat) (hl : l < N)
    (hs : s < L) (d : α) :
    ((List.range N).flatMap g).getD (l * L + s) d = (g l).getD s d := by
  rw [List.flatMap_def]
  have h1 : ∀ x ∈ (List.range N).map g, x.length = L := by
    intro x hx
    obtain ⟨i, hi, rfl⟩ := List.mem_map.1 hx
    exact hlen i (List.mem_range.1 hi)
  rw [flatten_getD _ L h1 l s (by simpa using hl) hs,
    getD_map_lt g _ l (by simpa using hl) 0 []]
  congr 1
  rw [getD_range_lt N l hl 0]

theorem foldr_max_le (xs : List Nat) (b : Nat) (h : ∀ x ∈ xs, x ≤ b) :
    xs.foldr max 0 ≤ b := by
  induction xs with
  | nil => simp
  | cons x rest ih =>
    simp only [List.foldr_cons]
    exact max_le (h x (by simp)) (ih (fun y hy => h y (by simp [hy])))

theorem le_foldr_max (xs : List Nat) (x : Nat) (h : x ∈ xs) :
    x ≤ xs.foldr max 0 := by
  induction xs with
  | nil => simp at h
  | cons y rest ih =>
    simp only [List.foldr_cons]
    rcases List.mem_cons.1 h with rfl | h'
    · exact le_max_left _ _
    · exact le_trans (ih h') (le_max_right _ _)

/-- If the elements of `xs` are exactly the naturals below `n`, then the
sorted distinct-value list of `xs` is `List.range n`. -/
theorem uniqueSorted_eq_range (xs : List Nat) (n : Nat)
    (h : ∀ x, x ∈ xs ↔ x < n) : TorchSpex.uniqueSorted xs = List.range n := by
  unfold TorchSpex.uniqueSorted
  rcases Nat.eq_zero_or_pos n with rfl | hn
  · have hxs : xs = [] := by
      cases xs with
      | nil => rfl
      | cons x rest => exact absurd ((h x).1 (by simp)) (by omega)
    subst hxs
    simp
  · have hmax : xs.foldr max 0 = n - 1 := by
      have h1 : xs.foldr max 0 ≤ n - 1 :=
        foldr_max_le xs (n - 1) (fun x hx => by have := (h x).1 hx; omega)
      have h2 : n - 1 ≤ xs.foldr max 0 :=
        le_foldr_max xs (n - 1) ((h (n - 1)).2 (by omega))
      omega
    rw [hmax, Nat.sub_add_cancel hn]
    have : ∀ v ∈ List.range n, v ∈ xs := fun v hv =>
      (h v).2 (List.mem_range.1 hv)
    rw [List.filter_eq_self.2 (fun v hv => by simpa using this v hv)]

theorem indexOf_range (t n : Nat) (h : t < n) :
    (List.range n).indexOf t = t := by
  induction n with
  | zero => omega
  | succ n' ih =>
    rw [List.range_succ]
    rcases Nat.lt_or_ge t n' with ht | ht
    · rw [List.indexOf_append_of_mem (by simpa using ht)]
      exact ih ht
    · have ht' : t = n' := by omega
      subst ht'
      rw [List.indexOf_append_of_not_mem (by simp), List.length_range]
      simp

theorem cumsum_getD (xs : List Nat) (i : Nat) (hi : i < xs.length) :
    (TorchSpex.cumsum xs).getD i 0 = (xs.take (i + 1)).sum := by
  unfold TorchSpex.cumsum
  rw [getD_map_lt _ _ i (by simpa using hi) 0 0, getD_range_lt _ i hi 0]

/-! ## Scatter-reduction (`index_add_`) lemmas -/

namespace TorchSpex

/-- Shape predicate for one accumulator / source slab: `R` rows of `C`
columns each. -/
def HasShape (R Cc : Nat) (A : Mat) : Prop :=
  A.length = R ∧ ∀ row ∈ A, row.length = Cc

/-- Entry `(m, n)` of a slab, out-of-range reads giving `0`. -/
def entry2 (A : Mat) (m n : Nat) : ℚ := (A.getD m []).getD n 0

/-- Entry `(k, m, n)` of a 3-D block, out-of-range reads giving `0`. -/
def entry3 (X : List Mat) (k m n : Nat) : ℚ := entry2 (X.getD k []) m n

theorem getD_replicate {α : Type} (n : Nat) (a d : α) (k : Nat) :
    (List.replicate n a).getD k d = if k < n then a else d := by
  rcases Nat.lt_or_ge k n with h | h
  · rw [List.getD_eq_getElem _ _ (by simpa using h), List.getElem_replicate,
      if_pos h]
  · rw [List.getD_eq_default _ _ (by simpa using h), if_neg (by omega)]

theorem zerosMat_shape (R Cc : Nat) : HasShape R Cc (zerosMat R Cc) := by
  constructor
  · simp [zerosMat]
  · intro row hrow
    rw [List.eq_of_mem_replicate hrow]
    simp

theorem entry2_zerosMat (R Cc m n : Nat) : entry2 (zerosMat R Cc) m n = 0 := by
  unfold entry2 zerosMat
  rw [getD_replicate]
  split
  · rw [getD_replicate]
    split <;> rfl
  · simp

theorem matAdd_shape {R Cc : Nat} {A B : Mat} (hA : HasShape R Cc A)
    (hB : HasShape R Cc B) : HasShape R Cc (matAdd A B) := by
  obtain ⟨hA1, hA2⟩ := hA
  obtain ⟨hB1, hB2⟩ := hB
  have hlen : (matAdd A B).length = R := by
    simp [matAdd, List.length_zipWith, hA1, hB1]
  refine ⟨hlen, ?_⟩
  intro row hrow
  obtain ⟨i, hi, hrow⟩ := List.mem_iff_getElem.1 hrow
  have hiR : i < R := by rw [hlen] at hi; exact hi
  have hiA : i < A.length := by omega
  have hiB : i < B.length := by omega
  subst hrow
  show (matAdd A B)[i].length = Cc
  unfold matAdd
  rw [List.getElem_zipWith, List.length_zipWith,
    hA2 _ (List.getElem_mem hiA), hB2 _ (List.getElem_mem hiB), min_self]

theorem entry2_matAdd {R Cc : Nat} {A B : Mat} (hA : HasShape R Cc A)
    (hB : HasShape R Cc B) (m n : Nat) (hm : m < R) (hn : n < Cc) :
    entry2 (matAdd A B) m n = entry2 A m n + entry2 B m n := by
  have hAB := matAdd_shape hA hB
  obtain ⟨hA1, hA2⟩ := hA
  obtain ⟨hB1, hB2⟩ := hB
  obtain ⟨hAB1, hAB2⟩ := hAB
  have hmA : m < A.length := by omega
  have hmB : m < B.length := by omega
  have hmAB : m < (matAdd A B).length := by omega
  unfold entry2
  rw [List.getD_eq_getElem _ _ hmAB, List.getD_eq_getElem _ _ hmA,
    List.getD_eq_getElem _ _ hmB]
  have hnA : n < A[m].length := by
    rw [hA2 _ (List.getElem_mem hmA)]; exact hn
  have hnB : n < B[m].length := by
    rw [hB2 _ (List.getElem_mem hmB)]; exact hn
  have hnAB : n < (matAdd A B)[m].length := by
    rw [hAB2 _ (List.getElem_mem hmAB)]; exact hn
  rw [List.getD_eq_getElem _ _ hnAB, List.getD_eq_getElem _ _ hnA,
    List.getD_eq_getElem _ _ hnB]
  show (matAdd A B)[m][n] = _
  unfold matAdd
  simp [List.getElem_zipWith]

/-- The body of one `index_add_` step, on the running accumulator. -/
def iaStep (a : List Mat) (q : Nat × Mat) : List Mat :=
  a.set q.1 (matAdd (a.getD q.1 []) q.2)

theorem index_add_eq_foldl (acc : List Mat) (idx : List Nat)
    (src : List Mat) :
    index_add acc idx src = (List.zip idx src).foldl iaStep acc := rfl

theorem iaStep_length (a : List Mat) (q : Nat × Mat) :
    (iaStep a q).length = a.length := List.length_set a q.1 _

theorem foldl_iaStep_length (zs : List (Nat × Mat)) (acc : List Mat) :
    (zs.foldl iaStep acc).length = acc.length := by
  induction zs generalizing acc with
  | nil => rfl
  | cons q rest ih =>
    rw [List.foldl_cons, ih, iaStep_length]

theorem index_add_length (acc : List Mat) (idx : List Nat) (src : List Mat) :
    (index_add acc idx src).length = acc.length :=
  foldl_iaStep_length _ _

theorem iaStep_shapes {R Cc : Nat} {a : List Mat} {q : Nat × Mat}
    (ha : ∀ A ∈ a, HasShape R Cc A) (hq : HasShape R Cc q.2) :
    ∀ A ∈ iaStep a q, HasShape R Cc A := by
  intro A hA
  unfold iaStep at hA
  rcases Nat.lt_or_ge q.1 a.length with hlt | hge
  · rcases List.mem_or_eq_of_mem_set hA with h | rfl
    · exact ha A h
    · refine matAdd_shape (ha _ ?_) hq
      rw [List.getD_eq_getElem _ _ hlt]
      exact List.getElem_mem hlt
  · rw [List.set_eq_of_length_le hge] at hA
    exact ha A hA

theorem foldl_iaStep_shapes {R Cc : Nat} (zs : List (Nat × Mat))
    (acc : List Mat) (hacc : ∀ A ∈ acc, HasShape R Cc A)
    (hzs : ∀ q ∈ zs, HasShape R Cc q.2) :
    ∀ A ∈ zs.foldl iaStep acc, HasShape R Cc A := by
  induction zs generalizing acc with
  | nil => exact hacc
  | cons q rest ih =>
    rw [List.foldl_cons]
    exact ih _ (iaStep_shapes hacc (hzs q (by simp)))
      (fun q' hq' => hzs q' (by simp [hq']))

theorem index_add_shapes {R Cc : Nat} (acc : List Mat) (idx : List Nat)
    (src : List Mat) (hacc : ∀ A ∈ acc, HasShape R Cc A)
    (hsrc : ∀ A ∈ src, HasShape R Cc A) :
    ∀ A ∈ index_add acc idx src, HasShape R Cc A := by
  rw [index_add_eq_foldl]
  exact foldl_iaStep_shapes _ _ hacc
    (fun q hq => hsrc q.2 (List.of_mem_zip hq).2)

theorem getD_set_self {α : Type} (l : List α) (i : Nat) (a d : α)
    (h : i < l.length) : (l.set i a).getD i d = a := by
  rw [List.getD_eq_getElem _ _ (by simpa using h)]
  exact List.getElem_set_self _

theorem getD_set_ne {α : Type} (l : List α) (i j : Nat) (a d : α)
    (h : i ≠ j) : (l.set i a).getD j d = l.getD j d := by
  rcases Nat.lt_or_ge j l.length with hj | hj
  · rw [List.getD_eq_getElem _ _ (by simpa using hj),
      List.getD_eq_getElem _ _ hj]
    exact List.getElem_set_ne h _
  · rw [List.getD_eq_default _ _ (by simpa using hj),
      List.getD_eq_default _ _ (by simpa using hj)]

/-- Pointwise characterization of the scatter-accumulation: after folding all
`(index, source-slab)` updates into `acc`, slot `k`'s entry `(m, n)` holds
its initial value plus the sum of entries `(m, n)` of exactly the source
slabs whose index equals `k` — no update dropped, none double-counted. -/
theorem foldl_iaStep_entry {R Cc : Nat} (zs : List (Nat × Mat))
    (acc : List Mat) (hacc : ∀ A ∈ acc, HasShape R Cc A)
    (hzs : ∀ q ∈ zs, HasShape R Cc q.2) (k m n : Nat) (hk : k < acc.length)
    (hm : m < R) (hn : n < Cc) :
    entry3 (zs.foldl iaStep acc) k m n =
      entry3 acc k m n +
      ((zs.filter (fun q => q.1 == k)).map (fun q => entry2 q.2 m n)).sum := by
  induction zs generalizing acc with
  | nil => simp
  | cons q rest ih =>
    rw [List.foldl_cons,
      ih (iaStep acc q) (iaStep_shapes hacc (hzs q (by simp)))
        (fun q' h => hzs q' (by simp [h])) (by rw [iaStep_length]; exact hk)]
    by_cases hqk : q.1 = k
    · have hstep : entry3 (iaStep acc q) k m n =
          entry3 acc k m n + entry2 q.2 m n := by
        unfold iaStep entry3
        rw [hqk, getD_set_self _ _ _ _ hk]
        have hacck : HasShape R Cc (acc.getD k []) := by
          refine hacc _ ?_
          rw [List.getD_eq_getElem _ _ hk]
          exact List.getElem_mem hk
        exact entry2_matAdd hacck (hzs q (by simp)) m n hm hn
      rw [hstep, List.filter_cons, if_pos (by simpa using hqk)]
      simp only [List.map_cons, List.sum_cons]
      ring
    · have hstep : entry3 (iaStep acc q) k m n = entry3 acc k m n := by
        unfold iaStep entry3
        rw [getD_set_ne _ _ _ _ _ hqk]
      rw [hstep, List.filter_cons, if_neg (by simpa using hqk)]

/-- `index_add` into a freshly-zeroed accumulator: each slot is exactly the
sum of the source slabs scattered to it. -/
theorem index_add_zeros_entry {R Cc N : Nat} (idx : List Nat)
    (src : List Mat) (hsrc : ∀ A ∈ src, HasShape R Cc A)
    (k m n : Nat) (hk : k < N) (hm : m < R) (hn : n < Cc) :
    entry3 (index_add (List.replicate N (zerosMat R Cc)) idx src) k m n =
      (((idx.zip src).filter (fun q => q.1 == k)).map
        (fun q => entry2 q.2 m n)).sum := by
  rw [index_add_eq_foldl,
    foldl_iaStep_entry _ _ (fun A hA => by
        rw [List.eq_of_mem_replicate hA]; exact zerosMat_shape R Cc)
      (fun q hq => hsrc q.2 (List.of_mem_zip hq).2) k m n
      (by simpa using hk) hm hn]
  unfold entry3
  rw [getD_replicate, if_pos hk, entry2_zerosMat, zero_add]

/-- `(List.range l.length).map (fun i => f (l.getD i d)) = l.map f`. -/
theorem range_map_getD {α β : Type} (l : List α) (f : α → β) (d : α) :
    (List.range l.length).map (fun i => f (l.getD i d)) = l.map f := by
  induction l with
  | nil => simp
  | cons x rest ih =>
    rw [List.length_cons, List.range_succ_eq_map, List.map_cons,
      List.map_map, List.map_cons, List.getD_cons_zero]
    congr 1

/-- Reindexing a filtered mapped zip as a filtered mapped `List.range`:
the per-position view of the same selection. -/
theorem zip_filter_map_eq_range {β γ : Type} (xs : List Nat) (ys : List β)
    (hlen : xs.length = ys.length) (P : Nat → Bool) (f : β → γ) (d : β) :
    ((xs.zip ys).filter (fun q => P q.1)).map (fun q => f q.2) =
    ((List.range xs.length).filter (fun p => P (xs.getD p 0))).map
      (fun p => f (ys.getD p d)) := by
  induction xs generalizing ys with
  | nil => simp
  | cons x xs' ih =>
    cases ys with
    | nil => simp at hlen
    | cons y ys' =>
      have hlen' : xs'.length = ys'.length := by simpa using hlen
      rw [List.zip_cons_cons, List.length_cons, List.range_succ_eq_map,
        List.filter_cons, List.filter_cons]
      simp only [List.getD_cons_zero]
      have htail :
          ((List.map Nat.succ (List.range xs'.length)).filter
            (fun p => P ((x :: xs').getD p 0))).map
              (fun p => f ((y :: ys').getD p d)) =
          ((List.range xs'.length).filter (fun p => P (xs'.getD p 0))).map
            (fun p => f (ys'.getD p d)) := by
        rw [List.filter_map, List.map_map]
        congr 1
      by_cases hP : P x
      · rw [if_pos (by simpa using hP), if_pos (by simpa using hP),
          List.map_cons, List.map_cons, htail, ih ys' hlen']
        simp
      · rw [if_neg (by simpa using hP), if_neg (by simpa using hP),
          htail, ih ys' hlen']

/-! ## `np.where`-selection lemmas -/

theorem mem_whereEq (species : List Int) (a : Int) (i : Nat) :
    i ∈ whereEq species a ↔ i < species.length ∧ species.getD i 0 = a := by
  unfold whereEq
  simp [List.mem_filter, List.mem_range]

theorem whereEq_length (species : List Int) (a : Int) :
    (whereEq species a).length = species.count a := by
  unfold whereEq
  induction species with
  | nil => simp
  | cons x rest ih =>
    rw [List.length_cons, List.range_succ_eq_map, List.filter_cons,
      List.count_cons]
    have htail : ((List.map Nat.succ (List.range rest.length)).filter
        (fun i => decide ((x :: rest).getD i 0 = a))).length =
        ((List.range rest.length).filter
          (fun i => decide (rest.getD i 0 = a))).length := by
      rw [List.filter_map, List.length_map]
      congr 1
    simp only [List.getD_cons_zero]
    by_cases hx : x = a
    · rw [if_pos (by simpa using hx), List.length_cons, htail, ih]
      simp [hx]
    · rw [if_neg (by simpa using hx), htail, ih]
      simp [hx]

theorem whereEq_map_getD_indexOf {β : Type} (species : List Int) (a : Int)
    (i : Nat) (hi : i < species.length) (ha : species.getD i 0 = a)
    (f : Nat → β) (d : β) :
    ((whereEq species a).map f).getD ((whereEq species a).indexOf i) d
      = f i := by
  have hmem : i ∈ whereEq species a := (mem_whereEq species a i).2 ⟨hi, ha⟩
  have hlt := List.indexOf_lt_length.2 hmem
  rw [List.getD_eq_getElem _ _ (by simpa using hlt), List.getElem_map,
    List.getElem_indexOf hlt]

/-! ## Input collation

The collation of a list of independent structures into the flat batch
tensors is performed outside this file's source (`collate_nl` in the
repository's `structures` module). -/

/-- One atomic structure before collation: per-atom species, and per-pair
local `(center, neighbor)` indices, cell shifts and direction vectors. -/
structure AtomStructure where
  species : List Int
  pairs : List (Nat × Nat)
  shifts : List (Int × Int × Int)
  dvs : List (ℚ × ℚ × ℚ)
  deriving Repr, DecidableEq, Inhabited

/-- Modelled from the spec: the structure-index column of a collated batch
("Every per-atom and per-pair array carries a structure-index column
identifying ownership"); structure `t` (numbered from `j`) contributes
`f t` consecutive copies of its index. -/
def idsBy (f : AtomStructure → Nat) : List AtomStructure → Nat → List Nat
  | [], _ => []
  | st :: rest, j => List.replicate (f st) j ++ idsBy f rest (j + 1)

/-- Modelled from the spec: a structure batch is "a flat concatenation of
`S` independent atomic structures" — per-atom species column. -/
def collSpecies (S : List AtomStructure) : List Int := S.flatMap (·.species)

/-- Modelled from the spec: the per-atom local center-index column of the
collated batch (each structure numbers its atoms `0, …, n_atoms-1`). -/
def collCenters (S : List AtomStructure) : List Nat :=
  S.flatMap (fun st => List.range st.species.length)

/-- Modelled from the spec: the per-atom structure-index column. -/
def collSC (S : List AtomStructure) : List Nat := idsBy (·.species.length) S 0

/-- Modelled from the spec: the concatenated per-pair local index pairs. -/
def collPairs (S : List AtomStructure) : List (Nat × Nat) :=
  S.flatMap (·.pairs)

/-- Modelled from the spec: the per-pair structure-index column. -/
def collSP (S : List AtomStructure) : List Nat := idsBy (·.pairs.length) S 0

/-- Modelled from the spec: the concatenated per-pair cell shifts. -/
def collShifts (S : List AtomStructure) : List (Int × Int × Int) :=
  S.flatMap (·.shifts)

/-- Modelled from the spec: the concatenated per-pair direction vectors. -/
def collDvs (S : List AtomStructure) : List (ℚ × ℚ × ℚ) :=
  S.flatMap (·.dvs)

/-- The number of atoms preceding structure `t` in the collated batch (the
true local-to-flat center-index offset of structure `t`). -/
def atomOffset (S : List AtomStructure) (t : Nat) : Nat :=
  ((List.range t).map (fun i => (S.getD i default).species.length)).sum

/-- The true flat index of the center atom of pair `p` of the collated
batch: the atom offset of the pair's structure plus the pair's local center
index. -/
def trueFlatCenter (S : List AtomStructure) (p : Nat) : Nat :=
  atomOffset S ((collSP S).getD p 0) + ((collPairs S).getD p (0, 0)).1

/-- The true flat index of the neighbor atom of pair `p` of the collated
batch. -/
def trueFlatNeighbor (S : List AtomStructure) (p : Nat) : Nat :=
  atomOffset S ((collSP S).getD p 0) + ((collPairs S).getD p (0, 0)).2

/-- The species of the neighbor atom of pair `p` of the collated batch. -/
def pairNeighborSpecies (S : List AtomStructure) (p : Nat) : Int :=
  (collSpecies S).getD (trueFlatNeighbor S p) 0

theorem idsBy_length (f : AtomStructure → Nat) (S : List AtomStructure)
    (j : Nat) : (idsBy f S j).length = (S.map f).sum := by
  induction S generalizing j with
  | nil => rfl
  | cons st rest ih => simp [idsBy, ih]

theorem mem_idsBy (f : AtomStructure → Nat) (S : List AtomStructure)
    (j x : Nat) (hpos : ∀ st ∈ S, 0 < f st) :
    x ∈ idsBy f S j ↔ j ≤ x ∧ x < j + S.length := by
  induction S generalizing j with
  | nil => simp [idsBy]
  | cons st rest ih =>
    unfold idsBy
    rw [List.mem_append, List.mem_replicate,
      ih (j + 1) (fun st' h => hpos st' (by simp [h]))]
    constructor
    · rintro (⟨hne, rfl⟩ | ⟨h1, h2⟩) <;> simp <;> omega
    · rintro ⟨h1, h2⟩
      rcases Nat.eq_or_lt_of_le h1 with rfl | hlt
      · left
        exact ⟨by have := hpos st (by simp); omega, rfl⟩
      · right
        constructor <;> simp at h2 ⊢ <;> omega

theorem idsBy_mem_lower (f : AtomStructure → Nat) (S : List AtomStructure)
    (j x : Nat) (h : x ∈ idsBy f S j) : j ≤ x := by
  induction S generalizing j with
  | nil => simp [idsBy] at h
  | cons st rest ih =>
    unfold idsBy at h
    rcases List.mem_append.1 h with h | h
    · have := (List.mem_replicate.1 h).2
      omega
    · have := ih (j + 1) h
      omega

theorem count_idsBy (f : AtomStructure → Nat) (S : List AtomStructure)
    (j t : Nat) (ht : t < S.length) :
    (idsBy f S j).count (j + t) = f (S.getD t default) := by
  induction S generalizing j t with
  | nil => simp at ht
  | cons st rest ih =>
    unfold idsBy
    rw [List.count_append, List.count_replicate]
    cases t with
    | zero =>
      rw [if_pos (by simp)]
      have hz : (idsBy f rest (j + 1)).count (j + 0) = 0 := by
        rw [List.count_eq_zero]
        intro hmem
        have := idsBy_mem_lower f rest (j + 1) (j + 0) hmem
        omega
      rw [hz]
      simp
    | succ t' =>
      rw [if_neg (by simp)]
      have harith : j + (t' + 1) = (j + 1) + t' := by omega
      rw [harith, ih (j + 1) t' (by simpa using ht)]
      simp

/-! ## Correctness of the flat-center offset arithmetic on collated batches
whose structures all contribute at least one atom and one pair -/

theorem getD_mem {α : Type} (l : List α) (p : Nat) (d : α)
    (hp : p < l.length) : l.getD p d ∈ l := by
  rw [List.getD_eq_getElem _ _ hp]
  exact List.getElem_mem hp

theorem getD_zipWith_lt {α β γ : Type} (f : α → β → γ) (l1 : List α)
    (l2 : List β) (p : Nat) (h1 : p < l1.length) (h2 : p < l2.length)
    (d1 : α) (d2 : β) (dg : γ) :
    (List.zipWith f l1 l2).getD p dg = f (l1.getD p d1) (l2.getD p d2) := by
  rw [List.getD_eq_getElem _ _ (by rw [List.length_zipWith]; omega),
    List.getElem_zipWith, List.getD_eq_getElem _ _ h1,
    List.getD_eq_getElem _ _ h2]

theorem count_collSC (S : List AtomStructure) (t : Nat) (ht : t < S.length) :
    (collSC S).count t = (S.getD t default).species.length := by
  have h := count_idsBy (·.species.length) S 0 t ht
  simpa using h

theorem mem_collSC (S : List AtomStructure)
    (hpop : ∀ st ∈ S, 0 < st.species.length) (x : Nat) :
    x ∈ collSC S ↔ x < S.length := by
  rw [collSC, mem_idsBy _ _ _ _ hpop]
  omega

theorem mem_collSP (S : List AtomStructure)
    (hpop : ∀ st ∈ S, 0 < st.pairs.length) (x : Nat) :
    x ∈ collSP S ↔ x < S.length := by
  rw [collSP, mem_idsBy _ _ _ _ hpop]
  omega

theorem uniqueSorted_collSC (S : List AtomStructure)
    (hpop : ∀ st ∈ S, 0 < st.species.length) :
    uniqueSorted (collSC S) = List.range S.length :=
  uniqueSorted_eq_range _ _ (mem_collSC S hpop)

theorem uniqueCounts_collSC (S : List AtomStructure)
    (hpop : ∀ st ∈ S, 0 < st.species.length) :
    uniqueCounts (collSC S) =
      (List.range S.length).map
        (fun t => (S.getD t default).species.length) := by
  unfold uniqueCounts
  rw [uniqueSorted_collSC S hpop]
  apply List.map_congr_left
  intro t ht
  exact count_collSC S t (List.mem_range.1 ht)

theorem offsets_collSC (S : List AtomStructure)
    (hpop : ∀ st ∈ S, 0 < st.species.length) (t : Nat) (ht : t < S.length) :
    (centers_offsets_per_structure (collSC S)).getD t 0 = atomOffset S t := by
  unfold centers_offsets_per_structure
  rw [uniqueCounts_collSC S hpop]
  set counts := (List.range S.length).map
    (fun t => (S.getD t default).species.length) with hc
  have hclen : counts.length = S.length := by simp [hc]
  have hlen : (0 :: counts.dropLast).length = S.length := by
    simp only [List.length_cons, List.length_dropLast, hclen]
    omega
  rw [cumsum_getD _ t (by omega), List.take_succ_cons, List.sum_cons,
    zero_add]
  have h1 : counts.dropLast.take t = counts.take t := by
    rw [List.dropLast_eq_take, List.take_take]
    congr 1
    omega
  rw [h1, hc, ← List.map_take, List.take_range]
  have h2 : min t S.length = t := by omega
  rw [h2]
  rfl

theorem length_pairs_offset (sc sp : List Nat) :
    (pairs_offset sc sp).length = sp.length := by
  simp [pairs_offset, inverseIdx]

/-- On a batch whose per-atom arrays come from collating `S` (every
structure non-empty), and whose per-pair structure column `sp'` mentions
every structure, the computed per-pair offset is the true atom offset of
the pair's structure. -/
theorem pairs_offset_flat (S : List AtomStructure) (sp' : List Nat)
    (hmem : ∀ x, x ∈ sp' ↔ x < S.length)
    (hpop : ∀ st ∈ S, 0 < st.species.length) (p : Nat)
    (hp : p < sp'.length) :
    (pairs_offset (collSC S) sp').getD p 0 = atomOffset S (sp'.getD p 0) := by
  unfold pairs_offset
  have hinv : (inverseIdx sp').length = sp'.length := by simp [inverseIdx]
  rw [getD_map_lt _ _ p (by omega) 0 0]
  unfold inverseIdx
  rw [getD_map_lt _ _ p hp 0 0, uniqueSorted_eq_range sp' S.length hmem]
  have hsp : sp'.getD p 0 < S.length := (hmem _).1 (getD_mem sp' p 0 hp)
  rw [indexOf_range _ _ hsp]
  exact offsets_collSC S hpop _ hsp

/-- Under the same conditions, the computed flat aggregation index of each
pair is the true flat index of the pair's center atom. -/
theorem sIMeta_flat (S : List AtomStructure) (sp' : List Nat)
    (pairs' : List (Nat × Nat)) (hmem : ∀ x, x ∈ sp' ↔ x < S.length)
    (hpop : ∀ st ∈ S, 0 < st.species.length)
    (hlen : pairs'.length = sp'.length) (p : Nat) (hp : p < sp'.length) :
    (s_i_metadata_to_unique (collSC S) sp' pairs').getD p 0 =
      (pairs'.getD p (0, 0)).1 + atomOffset S (sp'.getD p 0) := by
  unfold s_i_metadata_to_unique
  rw [getD_zipWith_lt _ _ _ p (by omega)
    (by rw [length_pairs_offset]; omega) (0, 0) 0 0,
    pairs_offset_flat S sp' hmem hpop p hp]

/-- Closed form of one metadata sample row of `get_cartesian_vectors`. -/
theorem cart_samples_getD (species : List Int)
    (cell_shifts : List (Int × Int × Int)) (pairs : List (Nat × Nat))
    (sc sp : List Nat) (dvs : List (ℚ × ℚ × ℚ)) (p : Nat)
    (hp : p < pairs.length) :
    (get_cartesian_vectors species cell_shifts pairs sc sp dvs).samples.getD
        p default =
      { structureId := sp.getD p 0
        center := (pairs.getD p (0, 0)).1
        neighbor := (pairs.getD p (0, 0)).2
        species_center := species.getD
          ((pairs.getD p (0, 0)).1 + (pairs_offset sc sp).getD p 0) 0
        species_neighbor := species.getD
          ((pairs.getD p (0, 0)).2 + (pairs_offset sc sp).getD p 0) 0
        cell := cell_shifts.getD p (0, 0, 0) } := by
  unfold get_cartesian_vectors
  simp only
  rw [getD_map_lt _ _ p (by simpa using hp) 0 default,
    getD_range_lt _ p hp 0]

/-! ## Unfolding lemmas for the pipeline stages -/

theorem vector_expansion_length (C : Calc) (species : List Int)
    (cell_shifts : List (Int × Int × Int)) (pairs : List (Nat × Nat))
    (sc sp : List Nat) (dvs : List (ℚ × ℚ × ℚ)) :
    (vector_expansion C species cell_shifts pairs sc sp dvs).length =
      C.l_max + 1 := by
  simp [vector_expansion]

theorem vector_expansion_getD (C : Calc) (species : List Int)
    (cell_shifts : List (Int × Int × Int)) (pairs : List (Nat × Nat))
    (sc sp : List Nat) (dvs : List (ℚ × ℚ × ℚ)) (l : Nat)
    (hl : l < C.l_max + 1) :
    (vector_expansion C species cell_shifts pairs sc sp dvs).getD l default =
      { values := (List.range pairs.length).map (fun p =>
          veRow C l (dvs.getD p (0, 0, 0))
            ((get_cartesian_vectors species cell_shifts pairs sc sp
              dvs).samples.getD p default))
        samples := (get_cartesian_vectors species cell_shifts pairs sc sp
          dvs).samples
        components := mComponents l
        properties := veProperties C l } := by
  unfold vector_expansion
  rw [getD_map_lt _ _ l (by simpa using hl) 0 default,
    getD_range_lt _ l hl 0]

theorem veRow_shape_disc (C : Calc) (hws : C.WellShaped)
    (hal : C.is_alchemical = false) (l : Nat) (v : ℚ × ℚ × ℚ)
    (meta : PairMeta) :
    HasShape (2 * l + 1) (C.n_radial l) (veRow C l v meta) := by
  obtain ⟨hsh, hrd, _⟩ := hws
  unfold veRow
  rw [hal]
  simp only [Bool.false_eq_true, if_false]
  constructor
  · simp [hsh]
  · intro row hrow
    obtain ⟨s, _, rfl⟩ := List.mem_map.1 hrow
    simp [hrd]

theorem veRow_shape_alch (C : Calc) (hws : C.WellShaped)
    (hal : C.is_alchemical = true) (l : Nat) (v : ℚ × ℚ × ℚ)
    (meta : PairMeta) :
    HasShape (2 * l + 1) (C.n_pseudo_species * C.n_radial l)
      (veRow C l v meta) := by
  obtain ⟨hsh, _, hra⟩ := hws
  unfold veRow
  rw [hal]
  simp only [if_true]
  constructor
  · simp [hsh]
  · intro row hrow
    obtain ⟨s, _, rfl⟩ := List.mem_map.1 hrow
    rw [List.length_flatten]
    have h1 : ((C.radialA l (normSq v) meta).map
        (fun row => row.map (fun r => r * s))).map List.length =
        List.replicate C.n_pseudo_species (C.n_radial l) := by
      rw [List.map_map, List.eq_replicate_iff]
      refine ⟨by simp [(hra l (normSq v) meta).1], ?_⟩
      intro b hb
      obtain ⟨row', hrow', rfl⟩ := List.mem_map.1 hb
      simp [(hra l (normSq v) meta).2 row' hrow']
    rw [h1, List.sum_replicate, smul_eq_mul]

/-- Entry `(m, n)` of a standard-mode vector-expansion row: radial channel
`n` times angular order `m`. -/
theorem veRow_entry_disc (C : Calc) (hal : C.is_alchemical = false)
    (l : Nat) (v : ℚ × ℚ × ℚ) (meta : PairMeta) (m n : Nat)
    (hm : m < (C.sh l v).length)
    (hn : n < (C.radialD l (normSq v) meta).length) :
    entry2 (veRow C l v meta) m n =
      (C.radialD l (normSq v) meta).getD n 0 * (C.sh l v).getD m 0 := by
  unfold veRow entry2
  rw [hal]
  simp only [Bool.false_eq_true, if_false]
  rw [getD_map_lt _ _ m hm 0 [], getD_map_lt _ _ n hn 0 0]

theorem whereEq_lt (species : List Int) (a : Int) (i : Nat)
    (h : i ∈ whereEq species a) : i < species.length :=
  ((mem_whereEq species a i).1 h).1

/-- `getD` into a `flatMap` whose inner lists share length `L`. -/
theorem flatMap_getD_uniform {α β : Type} (A : List α) (g : α → List β)
    (L : Nat) (h : ∀ a ∈ A, (g a).length = L) (s n : Nat)
    (hs : s < A.length) (hn : n < L) (d : β) (dA : α) :
    (A.flatMap g).getD (s * L + n) d = (g (A.getD s dA)).getD n d := by
  rw [List.flatMap_def,
    flatten_getD _ L (by
      intro x hx
      obtain ⟨a, ha, rfl⟩ := List.mem_map.1 hx
      exact h a ha) s n (by simpa using hs) hn,
    getD_map_lt g _ s hs dA []]

/-- The key list of the assembled `TensorMap` (source lines 190-227):
degree-major, species-minor. -/
theorem assembleBlocks_keys (C : Calc) (species : List Int)
    (usi : List (Nat × Nat)) (densities : List (List Mat))
    (expanded : List VEBlock) (uspecies : List Int) :
    (assembleBlocks C species usi densities expanded uspecies).keys =
      (List.range (C.l_max + 1)).flatMap (fun l =>
        C.all_species.map (fun a => (a, l, (1 : Int)))) := rfl

theorem assembleBlocks_blocks_length (C : Calc) (species : List Int)
    (usi : List (Nat × Nat)) (densities : List (List Mat))
    (expanded : List VEBlock) (uspecies : List Int) :
    (assembleBlocks C species usi densities expanded uspecies).blocks.length
      = (C.l_max + 1) * C.all_species.length := by
  unfold assembleBlocks
  simp only [List.length_flatMap, List.map_map]
  simp [Function.comp_def, List.length_map, List.map_const',
    List.sum_replicate, smul_eq_mul]

/-- The block at flat position `l * n_species + s` of the assembled
`TensorMap`. -/
theorem assembleBlocks_blocks_getD (C : Calc) (species : List Int)
    (usi : List (Nat × Nat)) (densities : List (List Mat))
    (expanded : List VEBlock) (uspecies : List Int) (l s : Nat)
    (hl : l < C.l_max + 1) (hs : s < C.all_species.length) :
    (assembleBlocks C species usi densities expanded uspecies).blocks.getD
        (l * C.all_species.length + s) default =
      (let a := C.all_species.getD s 0
       let densities_l := densities.getD l []
       let where_ai := whereEq species a
       { a_i := a
         lam := l
         sigma := 1
         values := where_ai.map (fun i => densities_l.getD i [])
         samples := where_ai.map (fun i => usi.getD i (0, 0))
         components := (expanded.getD l default).components
         properties := uspecies.flatMap (fun aj =>
           (veBlockN (expanded.getD l default)).map (fun n => (aj, n, l))) }
        : SEBlock) := by
  unfold assembleBlocks
  simp only
  rw [flatMap_range_getD (C.l_max + 1) C.all_species.length _
    (fun l' _ => by simp) l s hl hs default]
  rw [getD_map_lt _ _ s hs 0 default]

/-! ## `Option`-monad `mapM` and `indexOf?` lemmas (for the dictionary
lookup of the discrete-species branch) -/

theorem indexOf?_of_mem {α : Type} [BEq α] [LawfulBEq α] (l : List α)
    (a : α) (h : a ∈ l) : l.indexOf? a = some (l.indexOf a) := by
  cases hio : List.indexOf? a l with
  | none =>
    exact absurd (by simp : (a == a) = true)
      (List.indexOf?_eq_none_iff.1 hio a h)
  | some i =>
    rw [List.indexOf_eq_indexOf?, hio]

theorem indexOf?_of_not_mem {α : Type} [BEq α] [LawfulBEq α] (l : List α)
    (a : α) (h : a ∉ l) : l.indexOf? a = none := by
  rw [List.indexOf?_eq_none_iff]
  intro x hx hbeq
  exact h (by rwa [eq_of_beq hbeq] at hx)

theorem mapM'_option_none_iff {α β : Type} (f : α → Option β)
    (l : List α) : l.mapM' f = none ↔ ∃ a ∈ l, f a = none := by
  induction l with
  | nil => simp [List.mapM']
  | cons a l ih =>
    cases hfa : f a with
    | none => simp [List.mapM', hfa]
    | some b =>
      cases hml : l.mapM' f with
      | none =>
        have hLHS : (a :: l).mapM' f = none := by
          simp [List.mapM', hfa, hml]
        rw [hLHS]
        constructor
        · intro _
          obtain ⟨a', ha', hf'⟩ := ih.1 hml
          exact ⟨a', by simp [ha'], hf'⟩
        · intro _
          rfl
      | some bs =>
        have hLHS : (a :: l).mapM' f = some (b :: bs) := by
          simp [List.mapM', hfa, hml]
        rw [hLHS]
        constructor
        · intro h
          exact absurd h (by simp)
        · rintro ⟨a', ha', hfa'⟩
          rcases List.mem_cons.1 ha' with rfl | hmem
          · rw [hfa] at hfa'
            exact absurd hfa' (by simp)
          · have hn := ih.2 ⟨a', hmem, hfa'⟩
            rw [hn] at hml
            exact absurd hml (by simp)

theorem mapM'_option_some {α β : Type} (f : α → Option β) (l : List α)
    (bs : List β) (h : l.mapM' f = some bs) (da : α) (db : β) :
    bs.length = l.length ∧
      ∀ p, p < l.length → f (l.getD p da) = some (bs.getD p db) := by
  induction l generalizing bs with
  | nil =>
    simp [List.mapM'] at h
    subst h
    simp
  | cons a l ih =>
    cases hfa : f a with
    | none => simp [List.mapM', hfa] at h
    | some b =>
      cases hml : l.mapM' f with
      | none => simp [List.mapM', hfa, hml] at h
      | some bs' =>
        have hLHS : (a :: l).mapM' f = some (b :: bs') := by
          simp [List.mapM', hfa, hml]
        rw [hLHS] at h
        have hb : bs = b :: bs' := (Option.some.inj h).symm
        subst hb
        obtain ⟨ih1, ih2⟩ := ih bs' hml
        refine ⟨by simp [ih1], ?_⟩
        intro p hp
        cases p with
        | zero => simpa using hfa
        | succ p' =>
          rw [List.getD_cons_succ, List.getD_cons_succ]
          exact ih2 p' (by simpa using hp)

theorem mapM_option_none_iff {α β : Type} (f : α → Option β) (l : List α) :
    l.mapM f = none ↔ ∃ a ∈ l, f a = none := by
  rw [← List.mapM'_eq_mapM]
  exact mapM'_option_none_iff f l

theorem mapM_option_some {α β : Type} (f : α → Option β) (l : List α)
    (bs : List β) (h : l.mapM f = some bs) (da : α) (db : β) :
    bs.length = l.length ∧
      ∀ p, p < l.length → f (l.getD p da) = some (bs.getD p db) := by
  rw [← List.mapM'_eq_mapM] at h
  exact mapM'_option_some f l bs h da db

/-- The discrete-branch lookups fail exactly when some pair's
neighbor-species metadata is absent from the species vocabulary. -/
theorem aj_shifts?_eq_none_iff (C : Calc) (samples_metadata : List PairMeta)
    (npairs : Nat) :
    aj_shifts? C samples_metadata npairs = none ↔
      ∃ p < npairs,
        (samples_metadata.getD p default).species_neighbor ∉
          C.all_species := by
  unfold aj_shifts?
  rw [mapM_option_none_iff]
  constructor
  · rintro ⟨p, hp, hnone⟩
    refine ⟨p, List.mem_range.1 hp, ?_⟩
    intro hmem
    rw [indexOf?_of_mem _ _ hmem] at hnone
    exact absurd hnone (by simp)
  · rintro ⟨p, hp, hnmem⟩
    exact ⟨p, List.mem_range.2 hp, indexOf?_of_not_mem _ _ hnmem⟩

theorem aj_shifts?_some (C : Calc) (samples_metadata : List PairMeta)
    (npairs : Nat) (aj : List Nat)
    (h : aj_shifts? C samples_metadata npairs = some aj) :
    aj.length = npairs ∧ ∀ p, p < npairs →
      (samples_metadata.getD p default).species_neighbor ∈ C.all_species ∧
      aj.getD p 0 = C.all_species.indexOf
        ((samples_metadata.getD p default).species_neighbor) := by
  unfold aj_shifts? at h
  obtain ⟨h1, h2⟩ := mapM_option_some _ _ _ h 0 0
  refine ⟨by simpa using h1, ?_⟩
  intro p hp
  have := h2 p (by simpa using hp)
  rw [getD_range_lt _ p hp 0] at this
  by_cases hmem : (samples_metadata.getD p default).species_neighbor ∈
      C.all_species
  · refine ⟨hmem, ?_⟩
    rw [indexOf?_of_mem _ _ hmem] at this
    exact (Option.some.injEq _ _ ▸ this).symm
  · rw [indexOf?_of_not_mem _ _ hmem] at this
    exact absurd this (by simp)

theorem aj_shifts?_isSome (C : Calc) (samples_metadata : List PairMeta)
    (npairs : Nat)
    (h : ∀ p, p < npairs →
      (samples_metadata.getD p default).species_neighbor ∈ C.all_species) :
    (aj_shifts? C samples_metadata npairs).isSome := by
  cases hs : aj_shifts? C samples_metadata npairs with
  | none =>
    obtain ⟨p, hp, hnm⟩ := (aj_shifts?_eq_none_iff C samples_metadata
      npairs).1 hs
    exact absurd (h p hp) hnm
  | some aj => rfl

/-! ## Equation lemmas for the two branches of
`SphericalExpansion.forward` -/

theorem spherical_expansion_alch_eq (C : Calc) (hal : C.is_alchemical = true)
    (species : List Int) (cell_shifts : List (Int × Int × Int))
    (centers : List Nat) (pairs : List (Nat × Nat)) (sc sp : List Nat)
    (dvs : List (ℚ × ℚ × ℚ)) :
    spherical_expansion C species cell_shifts centers pairs sc sp dvs =
      some (assembleBlocks C species (List.zip sc centers)
        (densities_alch C (vector_expansion C species cell_shifts pairs sc
          sp dvs) (s_i_metadata_to_unique sc sp pairs) centers.length)
        (vector_expansion C species cell_shifts pairs sc sp dvs)
        ((List.range C.n_pseudo_species).map (fun k => -(k : Int)))) := by
  unfold spherical_expansion
  rw [hal]
  simp only [if_true]

theorem spherical_expansion_disc_eq (C : Calc)
    (hal : C.is_alchemical = false) (species : List Int)
    (cell_shifts : List (Int × Int × Int)) (centers : List Nat)
    (pairs : List (Nat × Nat)) (sc sp : List Nat)
    (dvs : List (ℚ × ℚ × ℚ)) :
    spherical_expansion C species cell_shifts centers pairs sc sp dvs =
      match aj_shifts? C (get_cartesian_vectors species cell_shifts pairs
          sc sp dvs).samples pairs.length with
      | none => none
      | some aj_shifts =>
        some (assembleBlocks C species (List.zip sc centers)
          (densities_disc C
            (vector_expansion C species cell_shifts pairs sc sp dvs)
            (List.zipWith (fun c s => c * C.all_species.length + s)
              (s_i_metadata_to_unique sc sp pairs) aj_shifts)
            centers.length C.all_species.length)
          (vector_expansion C species cell_shifts pairs sc sp dvs)
          C.all_species) := by
  unfold spherical_expansion
  rw [hal]
  simp only [Bool.false_eq_true, if_false]

/-! ## Characterization of the density tensors -/

theorem HasShape_row_length {R Cc : Nat} {A : Mat} (h : HasShape R Cc A)
    (m : Nat) (hm : m < R) : (A.getD m []).length = Cc := by
  obtain ⟨h1, h2⟩ := h
  rw [List.getD_eq_getElem _ _ (by omega)]
  exact h2 _ (List.getElem_mem (by omega))

theorem uniqueSorted_range (n : Nat) :
    uniqueSorted (List.range n) = List.range n :=
  uniqueSorted_eq_range _ _ (fun x => List.mem_range)

theorem veBlockN_disc (C : Calc) (hal : C.is_alchemical = false) (l : Nat)
    (b : VEBlock) (hb : b.properties = veProperties C l) :
    veBlockN b = List.range (C.n_radial l) := by
  unfold veBlockN
  rw [hb]
  unfold veProperties
  rw [hal]
  simp only [Bool.false_eq_true, if_false, VEProps.nColumn]
  rw [uniqueSorted_range]
  simp

theorem veBlockN_alch (C : Calc) (hal : C.is_alchemical = true)
    (hps : 0 < C.n_pseudo_species) (l : Nat) (b : VEBlock)
    (hb : b.properties = veProperties C l) :
    veBlockN b = List.range (C.n_radial l) := by
  unfold veBlockN
  rw [hb]
  unfold veProperties
  rw [hal]
  simp only [if_true, VEProps.nColumn]
  have hmem : ∀ x, x ∈ (((List.range C.n_pseudo_species).flatMap (fun k =>
      (List.range (C.n_radial l)).map (fun n => (-(k : Int), n)))).map
        Prod.snd) ↔ x < C.n_radial l := by
    intro x
    simp only [List.mem_map, List.mem_flatMap, List.mem_range]
    constructor
    · rintro ⟨⟨k, n⟩, ⟨k', hk', a, ha, heq⟩, rfl⟩
      simp only [Prod.mk.injEq] at heq
      obtain ⟨h1, h2⟩ := heq
      subst h2
      exact ha
    · intro hx
      exact ⟨(-(0 : Int), x), ⟨0, hps, x, hx, rfl⟩, rfl⟩
  rw [uniqueSorted_eq_range _ _ hmem]
  simp

theorem disc_acc_length (C : Calc) (expanded : List VEBlock)
    (didx : List Nat) (n_centers n_species l : Nat) :
    (disc_acc C expanded didx n_centers n_species l).length =
      n_centers * n_species := by
  unfold disc_acc
  rw [index_add_length]
  simp

theorem disc_acc_shapes (C : Calc) (expanded : List VEBlock)
    (didx : List Nat) (n_centers n_species l : Nat)
    (hsrc : ∀ A ∈ (expanded.getD l default).values,
      HasShape (2 * l + 1) (C.n_radial l) A) :
    ∀ A ∈ disc_acc C expanded didx n_centers n_species l,
      HasShape (2 * l + 1) (C.n_radial l) A := by
  unfold disc_acc
  exact index_add_shapes _ _ _
    (fun A hA => by
      rw [List.eq_of_mem_replicate hA]
      exact zerosMat_shape _ _) hsrc

/-- Accumulator slot `k`, entry `(m, n)`, of the discrete-branch
scatter-reduction: the exact sum of the degree-`l` vector-expansion rows of
the pairs whose density index is `k`. -/
theorem disc_acc_entry (C : Calc) (expanded : List VEBlock)
    (didx : List Nat) (n_centers n_species l npairs : Nat)
    (hsrc : ∀ A ∈ (expanded.getD l default).values,
      HasShape (2 * l + 1) (C.n_radial l) A)
    (hvlen : (expanded.getD l default).values.length = npairs)
    (hlen : didx.length = npairs) (k m n : Nat)
    (hk : k < n_centers * n_species) (hm : m < 2 * l + 1)
    (hn : n < C.n_radial l) :
    entry3 (disc_acc C expanded didx n_centers n_species l) k m n =
      (((List.range npairs).filter (fun p => didx.getD p 0 == k)).map
        (fun p => entry2 ((expanded.getD l default).values.getD p [])
          m n)).sum := by
  unfold disc_acc
  rw [index_add_zeros_entry _ _ hsrc k m n hk hm hn,
    zip_filter_map_eq_range didx _ (by omega) (fun x => x == k)
      (fun A => entry2 A m n) [], hlen]

theorem densities_alch_getD (C : Calc) (expanded : List VEBlock)
    (didx : List Nat) (n_centers l : Nat) (hl : l < C.l_max + 1) :
    (densities_alch C expanded didx n_centers).getD l [] =
      index_add
        (List.replicate n_centers
          (zerosMat (2 * l + 1) (C.n_pseudo_species * C.n_radial l)))
        didx (expanded.getD l default).values := by
  unfold densities_alch
  rw [getD_map_lt _ _ l (by simpa using hl) 0 [], getD_range_lt _ l hl 0]

/-- Center `c`, entry `(m, n)`, of the alchemical-branch reduction: the
exact sum of the degree-`l` vector-expansion rows of the pairs whose
density index is `c`. -/
theorem densities_alch_entry (C : Calc) (expanded : List VEBlock)
    (didx : List Nat) (n_centers l npairs : Nat) (hl : l < C.l_max + 1)
    (hsrc : ∀ A ∈ (expanded.getD l default).values,
      HasShape (2 * l + 1) (C.n_pseudo_species * C.n_radial l) A)
    (hvlen : (expanded.getD l default).values.length = npairs)
    (hlen : didx.length = npairs) (c m n : Nat) (hc : c < n_centers)
    (hm : m < 2 * l + 1) (hn : n < C.n_pseudo_species * C.n_radial l) :
    entry3 ((densities_alch C expanded didx n_centers).getD l []) c m n =
      (((List.range npairs).filter (fun p => didx.getD p 0 == c)).map
        (fun p => entry2 ((expanded.getD l default).values.getD p [])
          m n)).sum := by
  rw [densities_alch_getD C expanded didx n_centers l hl,
    index_add_zeros_entry _ _ hsrc c m n hc hm hn,
    zip_filter_map_eq_range didx _ (by omega) (fun x => x == c)
      (fun A => entry2 A m n) [], hlen]

theorem densities_disc_getD (C : Calc) (expanded : List VEBlock)
    (didx : List Nat) (n_centers n_species l : Nat)
    (hl : l < C.l_max + 1) :
    (densities_disc C expanded didx n_centers n_species).getD l [] =
      (List.range n_centers).map (fun c =>
        (List.range (2 * l + 1)).map (fun m =>
          ((List.range n_species).map (fun s =>
            ((disc_acc C expanded didx n_centers n_species l).getD
              (c * n_species + s) []).getD m [])).flatten)) := by
  unfold densities_disc
  rw [getD_map_lt _ _ l (by simpa using hl) 0 [], getD_range_lt _ l hl 0]

/-- The axis canonicalization of the discrete branch: output column
`s * n_radial + n` of center `c` at order `m` reads accumulator slot
`c * n_species + s` at `(m, n)` — species-major, radial-minor. -/
theorem densities_disc_entry (C : Calc) (expanded : List VEBlock)
    (didx : List Nat) (n_centers n_species l : Nat) (hl : l < C.l_max + 1)
    (hacc : ∀ A ∈ disc_acc C expanded didx n_centers n_species l,
      HasShape (2 * l + 1) (C.n_radial l) A)
    (c m s n : Nat) (hc : c < n_centers) (hm : m < 2 * l + 1)
    (hs : s < n_species) (hn : n < C.n_radial l) :
    entry3 ((densities_disc C expanded didx n_centers n_species).getD l [])
        c m (s * C.n_radial l + n) =
      entry3 (disc_acc C expanded didx n_centers n_species l)
        (c * n_species + s) m n := by
  rw [densities_disc_getD C expanded didx n_centers n_species l hl]
  unfold entry3 entry2
  rw [getD_map_lt _ _ c (by simpa using hc) 0 [], getD_range_lt _ c hc 0,
    getD_map_lt _ _ m (by simpa using hm) 0 [], getD_range_lt _ m hm 0]
  have hkin : c * n_species + s < n_centers * n_species := by
    have h1 : c + 1 ≤ n_centers := hc
    have h2 : (c + 1) * n_species ≤ n_centers * n_species :=
      Nat.mul_le_mul_right n_species h1
    have h3 : (c + 1) * n_species = c * n_species + n_species := by ring
    omega
  have hrows : ∀ x ∈ (List.range n_species).map (fun s' =>
      ((disc_acc C expanded didx n_centers n_species l).getD
        (c * n_species + s') []).getD m []), x.length = C.n_radial l := by
    intro x hx
    obtain ⟨s', hs', rfl⟩ := List.mem_map.1 hx
    have hs'' : s' < n_species := List.mem_range.1 hs'
    have hkin' : c * n_species + s' < n_centers * n_species := by
      have h2 : (c + 1) * n_species ≤ n_centers * n_species :=
        Nat.mul_le_mul_right n_species hc
      have h3 : (c + 1) * n_species = c * n_species + n_species := by ring
      omega
    refine HasShape_row_length (hacc _ ?_) m hm
    refine getD_mem _ _ _ ?_
    rw [disc_acc_length]
    omega
  rw [flatten_getD _ (C.n_radial l) hrows s n (by simpa using hs) hn 0,
    getD_map_lt _ _ s (by simpa using hs) 0 [], getD_range_lt _ s hs 0]

/-! ## Bounds plumbing for collated batches -/

theorem idsBy_mem_upper (f : AtomStructure → Nat) (S : List AtomStructure)
    (j x : Nat) (h : x ∈ idsBy f S j) : x < j + S.length := by
  induction S generalizing j with
  | nil => simp [idsBy] at h
  | cons st rest ih =>
    unfold idsBy at h
    rcases List.mem_append.1 h with h | h
    · have := (List.mem_replicate.1 h).2
      simp only [List.length_cons]
      omega
    · have := ih (j + 1) h
      simp only [List.length_cons]
      omega

theorem atomOffset_succ (S : List AtomStructure) (t : Nat) :
    atomOffset S (t + 1) =
      atomOffset S t + (S.getD t default).species.length := by
  unfold atomOffset
  rw [List.range_succ, List.map_append, List.sum_append]
  simp

theorem collSpecies_length (S : List AtomStructure) :
    (collSpecies S).length = atomOffset S S.length := by
  unfold collSpecies atomOffset
  rw [List.length_flatMap]
  have h := range_map_getD S (fun st => st.species.length) default
  simp only [Function.comp_def]
  rw [← h]

theorem collCenters_length (S : List AtomStructure) :
    (collCenters S).length = atomOffset S S.length := by
  unfold collCenters atomOffset
  rw [List.length_flatMap]
  have h := range_map_getD S (fun st => st.species.length) default
  simp only [Function.comp_def, List.length_range]
  rw [← h]

theorem collPairs_length_eq_collSP (S : List AtomStructure) :
    (collPairs S).length = (collSP S).length := by
  unfold collPairs collSP
  rw [List.length_flatMap, idsBy_length]
  simp [Function.comp_def]

theorem collShifts_length_eq_collSP (S : List AtomStructure)
    (h : ∀ st ∈ S, st.shifts.length = st.pairs.length) :
    (collShifts S).length = (collSP S).length := by
  unfold collShifts collSP
  rw [List.length_flatMap, idsBy_length]
  apply congrArg
  apply List.map_congr_left
  intro st hst
  simp [Function.comp_def, h st hst]

theorem collDvs_length_eq_collSP (S : List AtomStructure)
    (h : ∀ st ∈ S, st.dvs.length = st.pairs.length) :
    (collDvs S).length = (collSP S).length := by
  unfold collDvs collSP
  rw [List.length_flatMap, idsBy_length]
  apply congrArg
  apply List.map_congr_left
  intro st hst
  simp [Function.comp_def, h st hst]

theorem atomOffset_add_le (S : List AtomStructure) (t : Nat)
    (ht : t < S.length) :
    atomOffset S t + (S.getD t default).species.length ≤
      atomOffset S S.length := by
  rw [← atomOffset_succ]
  unfold atomOffset
  have hsub : List.range S.length =
      List.range (t + 1) ++ ((List.range (S.length - (t + 1))).map
        (fun k => (t + 1) + k)) := by
    have h2 := List.range_add (t + 1) (S.length - (t + 1))
    rw [show t + 1 + (S.length - (t + 1)) = S.length by omega] at h2
    exact h2
  rw [hsub, List.map_append, List.sum_append]
  omega

/-- Every structure id appearing in the per-pair structure column of a
collated batch is a real structure index. -/
theorem collSP_getD_lt (S : List AtomStructure) (p : Nat)
    (hp : p < (collSP S).length) : (collSP S).getD p 0 < S.length := by
  have hmem := getD_mem (collSP S) p 0 hp
  have := idsBy_mem_upper (·.pairs.length) S 0 _ hmem
  omega

/-! ## The semantic pair-to-atom attribution, and the end-to-end
characterization of the discrete-mode coefficients -/

/-- The flat index of the center atom of pair `p`: the true atom offset of
the pair's structure plus the pair's local center index (formalizes "the
pair whose center is atom `i`"). -/
def flatCenterIdx (S : List AtomStructure) (sp' : List Nat)
    (pairs' : List (Nat × Nat)) (p : Nat) : Nat :=
  atomOffset S (sp'.getD p 0) + (pairs'.getD p (0, 0)).1

/-- The flat index of the neighbor atom of pair `p`. -/
def flatNeighborIdx (S : List AtomStructure) (sp' : List Nat)
    (pairs' : List (Nat × Nat)) (p : Nat) : Nat :=
  atomOffset S (sp'.getD p 0) + (pairs'.getD p (0, 0)).2

/-- The species of the neighbor atom of pair `p` (read from the collated
species column at the true neighbor index). -/
def neighborSpeciesOf (S : List AtomStructure) (sp' : List Nat)
    (pairs' : List (Nat × Nat)) (p : Nat) : Int :=
  (collSpecies S).getD (flatNeighborIdx S sp' pairs' p) 0

theorem trueFlatCenter_eq (S : List AtomStructure) (p : Nat) :
    trueFlatCenter S p = flatCenterIdx S (collSP S) (collPairs S) p := rfl

theorem trueFlatNeighbor_eq (S : List AtomStructure) (p : Nat) :
    trueFlatNeighbor S p = flatNeighborIdx S (collSP S) (collPairs S) p :=
  rfl

/-- With every structure mentioned by the pair column, the neighbor-species
metadata computed by `get_cartesian_vectors` is the species of the pair's
true neighbor atom. -/
theorem cart_species_neighbor_flat (S : List AtomStructure)
    (shifts' : List (Int × Int × Int)) (pairs' : List (Nat × Nat))
    (sp' : List Nat) (dvs' : List (ℚ × ℚ × ℚ))
    (hmem : ∀ x, x ∈ sp' ↔ x < S.length)
    (hA : ∀ st ∈ S, 0 < st.species.length)
    (hlen : pairs'.length = sp'.length) (p : Nat)
    (hp : p < pairs'.length) :
    ((get_cartesian_vectors (collSpecies S) shifts' pairs' (collSC S) sp'
        dvs').samples.getD p default).species_neighbor =
      neighborSpeciesOf S sp' pairs' p := by
  rw [cart_samples_getD _ _ _ _ _ _ p hp]
  simp only
  rw [pairs_offset_flat S sp' hmem hA p (by omega)]
  unfold neighborSpeciesOf flatNeighborIdx
  rw [Nat.add_comm]

theorem mul_add_inj (ns a b c d : Nat) (hb : b < ns) (hd : d < ns)
    (h : a * ns + b = c * ns + d) : a = c ∧ b = d := by
  have hac : a = c := by
    rcases Nat.lt_trichotomy a c with hlt | heq | hgt
    · have h1 : a + 1 ≤ c := hlt
      have h2 : (a + 1) * ns ≤ c * ns := Nat.mul_le_mul_right ns h1
      have h3 : (a + 1) * ns = a * ns + ns := by ring
      omega
    · exact heq
    · have h1 : c + 1 ≤ a := hgt
      have h2 : (c + 1) * ns ≤ a * ns := Nat.mul_le_mul_right ns h1
      have h3 : (c + 1) * ns = c * ns + ns := by ring
      omega
  subst hac
  omega

/-- The degree-`l` coefficient row of atom `i` in the output `TensorMap`:
the row of the block keyed by the atom's species, at the atom's position
among the atoms of its species. -/
def atomRowOf (C : Calc) (species : List Int) (res : SETensorMap)
    (i l : Nat) : Mat :=
  (res.blocks.getD (l * C.all_species.length +
    C.all_species.indexOf (species.getD i 0)) default).values.getD
    ((whereEq species (species.getD i 0)).indexOf i) []

/-- End-to-end sum characterization of the discrete-mode output: on a
batch whose per-atom arrays are collated from `S` and whose per-pair
arrays mention every structure, atom `i`'s degree-`l` row at component `m`,
column `s * n_radial + n`, is the exact sum of the degree-`l`
vector-expansion entries `(m, n)` over precisely the pairs whose center is
atom `i` and whose neighbor species is the `s`-th vocabulary species. -/
theorem disc_forward_coeff_sum (C : Calc) (S : List AtomStructure)
    (shifts' : List (Int × Int × Int)) (pairs' : List (Nat × Nat))
    (sp' : List Nat) (dvs' : List (ℚ × ℚ × ℚ)) (hws : C.WellShaped)
    (hal : C.is_alchemical = false) (hnd : C.all_species.Nodup)
    (hA : ∀ st ∈ S, 0 < st.species.length)
    (hmem : ∀ x, x ∈ sp' ↔ x < S.length)
    (hlen : pairs'.length = sp'.length)
    (hvoc : ∀ p, p < pairs'.length →
      neighborSpeciesOf S sp' pairs' p ∈ C.all_species)
    (res : SETensorMap)
    (hres : spherical_expansion C (collSpecies S) shifts' (collCenters S)
      pairs' (collSC S) sp' dvs' = some res) (i l m s n : Nat)
    (hi : i < (collSpecies S).length)
    (ha : (collSpecies S).getD i 0 ∈ C.all_species) (hl : l < C.l_max + 1)
    (hm : m < 2 * l + 1) (hs : s < C.all_species.length)
    (hn : n < C.n_radial l) :
    entry2 (atomRowOf C (collSpecies S) res i l) m
        (s * C.n_radial l + n) =
      (((List.range pairs'.length).filter (fun p =>
          flatCenterIdx S sp' pairs' p == i &&
          neighborSpeciesOf S sp' pairs' p == C.all_species.getD s 0)).map
        (fun p => entry2 (((vector_expansion C (collSpecies S) shifts'
          pairs' (collSC S) sp' dvs').getD l default).values.getD p [])
          m n)).sum := by
  have hdisc := spherical_expansion_disc_eq C hal (collSpecies S) shifts'
    (collCenters S) pairs' (collSC S) sp' dvs'
  cases haj : aj_shifts? C (get_cartesian_vectors (collSpecies S) shifts'
      pairs' (collSC S) sp' dvs').samples pairs'.length with
  | none =>
    rw [haj] at hdisc
    rw [hdisc] at hres
    exact absurd hres (by simp)
  | some aj =>
    rw [haj] at hdisc
    rw [hdisc] at hres
    have hres2 : res = assembleBlocks C (collSpecies S)
        (List.zip (collSC S) (collCenters S))
        (densities_disc C (vector_expansion C (collSpecies S) shifts'
          pairs' (collSC S) sp' dvs')
          (List.zipWith (fun c s => c * C.all_species.length + s)
            (s_i_metadata_to_unique (collSC S) sp' pairs') aj)
          (collCenters S).length C.all_species.length)
        (vector_expansion C (collSpecies S) shifts' pairs' (collSC S) sp'
          dvs') C.all_species := (Option.some.inj hres).symm
    subst hres2
    obtain ⟨hajlen, hajval⟩ := aj_shifts?_some C _ _ aj haj
    have hschlt : C.all_species.indexOf ((collSpecies S).getD i 0) <
        C.all_species.length := List.indexOf_lt_length.2 ha
    unfold atomRowOf
    rw [assembleBlocks_blocks_getD C (collSpecies S) _ _ _ _ l _ hl hschlt]
    simp only
    have haeq : C.all_species.getD
        (C.all_species.indexOf ((collSpecies S).getD i 0)) 0 =
        (collSpecies S).getD i 0 := by
      rw [List.getD_eq_getElem _ _ (by omega)]
      exact List.getElem_indexOf (by omega)
    rw [haeq,
      whereEq_map_getD_indexOf (collSpecies S) _ i hi rfl _ []]
    -- the selected row is center `i` of the canonicalized densities
    have hncenters : (collCenters S).length = (collSpecies S).length := by
      rw [collCenters_length, collSpecies_length]
    have hexp := vector_expansion_getD C (collSpecies S) shifts' pairs'
      (collSC S) sp' dvs' l hl
    have hsrc : ∀ A ∈ ((vector_expansion C (collSpecies S) shifts' pairs'
        (collSC S) sp' dvs').getD l default).values,
        HasShape (2 * l + 1) (C.n_radial l) A := by
      rw [hexp]
      intro A hA'
      obtain ⟨p, _, rfl⟩ := List.mem_map.1 hA'
      exact veRow_shape_disc C hws hal l _ _
    have hvlen : ((vector_expansion C (collSpecies S) shifts' pairs'
        (collSC S) sp' dvs').getD l default).values.length =
        pairs'.length := by
      rw [hexp]
      simp
    have hsIlen : (s_i_metadata_to_unique (collSC S) sp' pairs').length =
        pairs'.length := by
      unfold s_i_metadata_to_unique
      rw [List.length_zipWith, length_pairs_offset]
      omega
    have hdlen : (List.zipWith (fun c s => c * C.all_species.length + s)
        (s_i_metadata_to_unique (collSC S) sp' pairs') aj).length =
        pairs'.length := by
      rw [List.length_zipWith, hsIlen, hajlen]
      simp
    have hentry : entry2 ((((densities_disc C (vector_expansion C
        (collSpecies S) shifts' pairs' (collSC S) sp' dvs')
        (List.zipWith (fun c s => c * C.all_species.length + s)
          (s_i_metadata_to_unique (collSC S) sp' pairs') aj)
        (collCenters S).length C.all_species.length).getD l [])).getD i [])
        m (s * C.n_radial l + n) =
        entry3 (disc_acc C (vector_expansion C (collSpecies S) shifts'
          pairs' (collSC S) sp' dvs')
          (List.zipWith (fun c s => c * C.all_species.length + s)
            (s_i_metadata_to_unique (collSC S) sp' pairs') aj)
          (collCenters S).length C.all_species.length l)
          (i * C.all_species.length + s) m n := by
      exact densities_disc_entry C _ _ _ _ l hl
        (disc_acc_shapes C _ _ _ _ l hsrc) i m s n (by omega) hm hs hn
    rw [hentry, disc_acc_entry C _ _ (collCenters S).length
      C.all_species.length l pairs'.length hsrc hvlen hdlen
      (i * C.all_species.length + s) m n
      (by
        have h2 : (i + 1) * C.all_species.length ≤
            (collCenters S).length * C.all_species.length := by
          apply Nat.mul_le_mul_right
          omega
        have h3 : (i + 1) * C.all_species.length =
            i * C.all_species.length + C.all_species.length := by ring
        omega) hm hn]
    congr 1
    apply congrArg
    apply List.filter_congr
    intro p hp
    have hp' : p < pairs'.length := List.mem_range.1 hp
    have hdidx : (List.zipWith (fun c s => c * C.all_species.length + s)
        (s_i_metadata_to_unique (collSC S) sp' pairs') aj).getD p 0 =
        flatCenterIdx S sp' pairs' p * C.all_species.length +
          C.all_species.indexOf (neighborSpeciesOf S sp' pairs' p) := by
      rw [getD_zipWith_lt _ _ _ p (by omega) (by omega) 0 0 0,
        sIMeta_flat S sp' pairs' hmem hA hlen p (by omega),
        (hajval p hp').2,
        cart_species_neighbor_flat S shifts' pairs' sp' dvs' hmem hA hlen
          p hp']
      unfold flatCenterIdx
      rw [Nat.add_comm ((pairs'.getD p (0, 0)).1) _]
    rw [hdidx]
    have hajp : C.all_species.indexOf (neighborSpeciesOf S sp' pairs' p) <
        C.all_species.length := List.indexOf_lt_length.2 (hvoc p hp')
    rw [Bool.eq_iff_iff]
    simp only [beq_iff_eq, Bool.and_eq_true]
    constructor
    · intro h
      obtain ⟨h1, h2⟩ := mul_add_inj C.all_species.length _ _ _ _ hajp hs h
      refine ⟨h1, ?_⟩
      rw [← h2, List.getD_eq_getElem _ _ (by omega)]
      exact (List.getElem_indexOf (by omega)).symm
    · rintro ⟨h1, h2⟩
      rw [h1]
      congr 1
      rw [h2, List.getD_eq_getElem _ _ (by omega)]
      exact List.indexOf_getElem hnd s (by omega)

/-- End-to-end sum characterization of the alchemical-mode output: atom
`i`'s degree-`l` row at `(m, col)` is the exact sum of the degree-`l`
vector-expansion entries `(m, col)` over precisely the pairs whose center
is atom `i` (the pseudo-species channel is part of the column axis). -/
theorem alch_forward_coeff_sum (C : Calc) (S : List AtomStructure)
    (shifts' : List (Int × Int × Int)) (pairs' : List (Nat × Nat))
    (sp' : List Nat) (dvs' : List (ℚ × ℚ × ℚ)) (hws : C.WellShaped)
    (hal : C.is_alchemical = true)
    (hA : ∀ st ∈ S, 0 < st.species.length)
    (hmem : ∀ x, x ∈ sp' ↔ x < S.length)
    (hlen : pairs'.length = sp'.length) (res : SETensorMap)
    (hres : spherical_expansion C (collSpecies S) shifts' (collCenters S)
      pairs' (collSC S) sp' dvs' = some res) (i l m col : Nat)
    (hi : i < (collSpecies S).length)
    (ha : (collSpecies S).getD i 0 ∈ C.all_species) (hl : l < C.l_max + 1)
    (hm : m < 2 * l + 1) (hcol : col < C.n_pseudo_species * C.n_radial l) :
    entry2 (atomRowOf C (collSpecies S) res i l) m col =
      (((List.range pairs'.length).filter (fun p =>
          flatCenterIdx S sp' pairs' p == i)).map
        (fun p => entry2 (((vector_expansion C (collSpecies S) shifts'
          pairs' (collSC S) sp' dvs').getD l default).values.getD p [])
          m col)).sum := by
  have halch := spherical_expansion_alch_eq C hal (collSpecies S) shifts'
    (collCenters S) pairs' (collSC S) sp' dvs'
  rw [halch] at hres
  have hres2 : res = assembleBlocks C (collSpecies S)
      (List.zip (collSC S) (collCenters S))
      (densities_alch C (vector_expansion C (collSpecies S) shifts' pairs'
        (collSC S) sp' dvs') (s_i_metadata_to_unique (collSC S) sp'
        pairs') (collCenters S).length)
      (vector_expansion C (collSpecies S) shifts' pairs' (collSC S) sp'
        dvs') ((List.range C.n_pseudo_species).map (fun k => -(k : Int)))
      := (Option.some.inj hres).symm
  subst hres2
  have hschlt : C.all_species.indexOf ((collSpecies S).getD i 0) <
      C.all_species.length := List.indexOf_lt_length.2 ha
  unfold atomRowOf
  rw [assembleBlocks_blocks_getD C (collSpecies S) _ _ _ _ l _ hl hschlt]
  simp only
  have haeq : C.all_species.getD
      (C.all_species.indexOf ((collSpecies S).getD i 0)) 0 =
      (collSpecies S).getD i 0 := by
    rw [List.getD_eq_getElem _ _ (by omega)]
    exact List.getElem_indexOf (by omega)
  rw [haeq, whereEq_map_getD_indexOf (collSpecies S) _ i hi rfl _ []]
  have hncenters : (collCenters S).length = (collSpecies S).length := by
    rw [collCenters_length, collSpecies_length]
  have hexp := vector_expansion_getD C (collSpecies S) shifts' pairs'
    (collSC S) sp' dvs' l hl
  have hsrc : ∀ A ∈ ((vector_expansion C (collSpecies S) shifts' pairs'
      (collSC S) sp' dvs').getD l default).values,
      HasShape (2 * l + 1) (C.n_pseudo_species * C.n_radial l) A := by
    rw [hexp]
    intro A hA'
    obtain ⟨p, _, rfl⟩ := List.mem_map.1 hA'
    exact veRow_shape_alch C hws hal l _ _
  have hvlen : ((vector_expansion C (collSpecies S) shifts' pairs'
      (collSC S) sp' dvs').getD l default).values.length =
      pairs'.length := by
    rw [hexp]
    simp
  have hsIlen : (s_i_metadata_to_unique (collSC S) sp' pairs').length =
      pairs'.length := by
    unfold s_i_metadata_to_unique
    rw [List.length_zipWith, length_pairs_offset]
    omega
  have hentry : entry2 (((densities_alch C (vector_expansion C
      (collSpecies S) shifts' pairs' (collSC S) sp' dvs')
      (s_i_metadata_to_unique (collSC S) sp' pairs')
      (collCenters S).length).getD l []).getD i []) m col =
      (((List.range pairs'.length).filter (fun p =>
        (s_i_metadata_to_unique (collSC S) sp' pairs').getD p 0 == i)).map
        (fun p => entry2 (((vector_expansion C (collSpecies S) shifts'
          pairs' (collSC S) sp' dvs').getD l default).values.getD p [])
          m col)).sum := by
    exact densities_alch_entry C _ _ _ l pairs'.length hl hsrc hvlen
      hsIlen i m col (by omega) hm hcol
  rw [hentry]
  congr 1
  apply congrArg
  apply List.filter_congr
  intro p hp
  have hp' : p < pairs'.length := List.mem_range.1 hp
  rw [sIMeta_flat S sp' pairs' hmem hA hlen p (by omega)]
  unfold flatCenterIdx
  rw [Nat.add_comm ((pairs'.getD p (0, 0)).1) _]

/-! ## Joint permutations of the per-pair arrays -/

theorem getD_zip_lt {α β : Type} (xs : List α) (ys : List β) (p : Nat)
    (h1 : p < xs.length) (h2 : p < ys.length) (dx : α) (dy : β) :
    (xs.zip ys).getD p (dx, dy) = (xs.getD p dx, ys.getD p dy) := by
  rw [List.getD_eq_getElem _ _ (by rw [List.length_zip]; omega),
    List.getElem_zip, List.getD_eq_getElem _ _ h1,
    List.getD_eq_getElem _ _ h2]

/-- A filtered, mapped `List.range` whose predicate and function read a
fixed list at the position equals the filter/map of the list itself. -/
theorem range_filter_map_eq_list {γ δ : Type} (Z : List γ) (P : γ → Bool)
    (F : γ → δ) (d : γ) :
    ((List.range Z.length).filter (fun p => P (Z.getD p d))).map
      (fun p => F (Z.getD p d)) = (Z.filter P).map F := by
  induction Z with
  | nil => simp
  | cons z Z ih =>
    rw [List.length_cons, List.range_succ_eq_map, List.filter_cons,
      List.filter_cons]
    simp only [List.getD_cons_zero]
    have htail : ((List.map Nat.succ (List.range Z.length)).filter
        (fun p => P ((z :: Z).getD p d))).map
          (fun p => F ((z :: Z).getD p d)) =
        ((List.range Z.length).filter (fun p => P (Z.getD p d))).map
          (fun p => F (Z.getD p d)) := by
      rw [List.filter_map, List.map_map]
      congr 1
    by_cases hP : P z = true
    · rw [if_pos hP, if_pos hP, List.map_cons, htail, ih, List.map_cons,
        List.getD_cons_zero]
    · rw [if_neg hP, if_neg hP, htail, ih]

/-- The per-pair record of a batch: local `(center, neighbor)` index pair,
owning structure id, cell shift, direction vector.  Jointly permuting the
four per-pair input arrays permutes this list. -/
abbrev PairData := (Nat × Nat) × Nat × (Int × Int × Int) × (ℚ × ℚ × ℚ)

/-- The list of per-pair records of a batch. -/
def pairZip (pairs' : List (Nat × Nat)) (sp' : List Nat)
    (shifts' : List (Int × Int × Int)) (dvs' : List (ℚ × ℚ × ℚ)) :
    List PairData :=
  pairs'.zip (sp'.zip (shifts'.zip dvs'))

def pdDflt : PairData := ((0, 0), 0, (0, 0, 0), (0, 0, 0))

/-- The true flat center index of one pair record. -/
def pdCenterIdx (S : List AtomStructure) (q : PairData) : Nat :=
  atomOffset S q.2.1 + q.1.1

/-- The true flat neighbor index of one pair record. -/
def pdNeighborIdx (S : List AtomStructure) (q : PairData) : Nat :=
  atomOffset S q.2.1 + q.1.2

/-- The species of the neighbor atom of one pair record. -/
def pdNbSpecies (S : List AtomStructure) (q : PairData) : Int :=
  (collSpecies S).getD (pdNeighborIdx S q) 0

/-- The `get_cartesian_vectors` metadata row of one pair record (with
correct offsets). -/
def pdMeta (S : List AtomStructure) (q : PairData) : PairMeta :=
  { structureId := q.2.1
    center := q.1.1
    neighbor := q.1.2
    species_center := (collSpecies S).getD (pdCenterIdx S q) 0
    species_neighbor := pdNbSpecies S q
    cell := q.2.2.1 }

/-- The degree-`l` vector-expansion row of one pair record. -/
def pdVeRow (C : Calc) (S : List AtomStructure) (l : Nat) (q : PairData) :
    Mat :=
  veRow C l q.2.2.2 (pdMeta S q)

theorem pairZip_length (pairs' : List (Nat × Nat)) (sp' : List Nat)
    (shifts' : List (Int × Int × Int)) (dvs' : List (ℚ × ℚ × ℚ))
    (h1 : pairs'.length = sp'.length) (h2 : shifts'.length = sp'.length)
    (h3 : dvs'.length = sp'.length) :
    (pairZip pairs' sp' shifts' dvs').length = pairs'.length := by
  unfold pairZip
  rw [List.length_zip, List.length_zip, List.length_zip]
  omega

theorem pairZip_getD (pairs' : List (Nat × Nat)) (sp' : List Nat)
    (shifts' : List (Int × Int × Int)) (dvs' : List (ℚ × ℚ × ℚ))
    (h1 : pairs'.length = sp'.length) (h2 : shifts'.length = sp'.length)
    (h3 : dvs'.length = sp'.length) (p : Nat) (hp : p < pairs'.length) :
    (pairZip pairs' sp' shifts' dvs').getD p pdDflt =
      (pairs'.getD p (0, 0), sp'.getD p 0, shifts'.getD p (0, 0, 0),
        dvs'.getD p (0, 0, 0)) := by
  unfold pairZip pdDflt
  rw [getD_zip_lt _ _ p (by omega)
      (by rw [List.length_zip, List.length_zip]; omega) (0, 0)
      (0, (0, 0, 0), (0, 0, 0)),
    getD_zip_lt _ _ p (by omega) (by rw [List.length_zip]; omega) 0
      ((0, 0, 0), (0, 0, 0)),
    getD_zip_lt _ _ p (by omega) (by omega) (0, 0, 0) (0, 0, 0)]

/-- With correct offsets, the degree-`l` vector-expansion row of pair `p`
is a function of the pair's record alone. -/
theorem ve_values_getD_eq_pd (C : Calc) (S : List AtomStructure)
    (shifts' : List (Int × Int × Int)) (pairs' : List (Nat × Nat))
    (sp' : List Nat) (dvs' : List (ℚ × ℚ × ℚ))
    (hmem : ∀ x, x ∈ sp' ↔ x < S.length)
    (hA : ∀ st ∈ S, 0 < st.species.length)
    (h1 : pairs'.length = sp'.length) (h2 : shifts'.length = sp'.length)
    (h3 : dvs'.length = sp'.length) (l : Nat) (hl : l < C.l_max + 1)
    (p : Nat) (hp : p < pairs'.length) :
    ((vector_expansion C (collSpecies S) shifts' pairs' (collSC S) sp'
      dvs').getD l default).values.getD p [] =
      pdVeRow C S l ((pairZip pairs' sp' shifts' dvs').getD p pdDflt) := by
  rw [vector_expansion_getD C (collSpecies S) shifts' pairs' (collSC S)
    sp' dvs' l hl]
  simp only
  rw [getD_map_lt _ _ p (by simpa using hp) 0 [],
    getD_range_lt _ p hp 0,
    cart_samples_getD _ _ _ _ _ _ p hp,
    pairs_offset_flat S sp' hmem hA p (by omega),
    pairZip_getD pairs' sp' shifts' dvs' h1 h2 h3 p hp]
  unfold pdVeRow pdMeta pdNbSpecies pdCenterIdx pdNeighborIdx
  simp only
  rw [Nat.add_comm ((pairs'.getD p (0, 0)).1) _,
    Nat.add_comm ((pairs'.getD p (0, 0)).2) _]

/-- The discrete-mode coefficient of atom `i` as a sum over the list of
per-pair records: the per-position sum re-expressed positionlessly, so that
joint permutations of the per-pair arrays are permutations of this list. -/
theorem disc_coeff_zip_sum (C : Calc) (S : List AtomStructure)
    (shifts' : List (Int × Int × Int)) (pairs' : List (Nat × Nat))
    (sp' : List Nat) (dvs' : List (ℚ × ℚ × ℚ)) (hws : C.WellShaped)
    (hal : C.is_alchemical = false) (hnd : C.all_species.Nodup)
    (hA : ∀ st ∈ S, 0 < st.species.length)
    (hmem : ∀ x, x ∈ sp' ↔ x < S.length)
    (hlen : pairs'.length = sp'.length) (h2 : shifts'.length = sp'.length)
    (h3 : dvs'.length = sp'.length)
    (hvoc : ∀ p, p < pairs'.length →
      neighborSpeciesOf S sp' pairs' p ∈ C.all_species)
    (res : SETensorMap)
    (hres : spherical_expansion C (collSpecies S) shifts' (collCenters S)
      pairs' (collSC S) sp' dvs' = some res) (i l m s n : Nat)
    (hi : i < (collSpecies S).length)
    (ha : (collSpecies S).getD i 0 ∈ C.all_species) (hl : l < C.l_max + 1)
    (hm : m < 2 * l + 1) (hs : s < C.all_species.length)
    (hn : n < C.n_radial l) :
    entry2 (atomRowOf C (collSpecies S) res i l) m
        (s * C.n_radial l + n) =
      (((pairZip pairs' sp' shifts' dvs').filter (fun q =>
          pdCenterIdx S q == i &&
          pdNbSpecies S q == C.all_species.getD s 0)).map
        (fun q => entry2 (pdVeRow C S l q) m n)).sum := by
  rw [disc_forward_coeff_sum C S shifts' pairs' sp' dvs' hws hal hnd hA
    hmem hlen hvoc res hres i l m s n hi ha hl hm hs hn]
  have hZ : (pairZip pairs' sp' shifts' dvs').length = pairs'.length :=
    pairZip_length pairs' sp' shifts' dvs' hlen h2 h3
  rw [← range_filter_map_eq_list (pairZip pairs' sp' shifts' dvs')
    (fun q => pdCenterIdx S q == i &&
      pdNbSpecies S q == C.all_species.getD s 0)
    (fun q => entry2 (pdVeRow C S l q) m n) pdDflt, hZ]
  have hfil : (List.range pairs'.length).filter (fun p =>
      flatCenterIdx S sp' pairs' p == i &&
      neighborSpeciesOf S sp' pairs' p == C.all_species.getD s 0) =
      (List.range pairs'.length).filter (fun p =>
        pdCenterIdx S ((pairZip pairs' sp' shifts' dvs').getD p pdDflt)
          == i &&
        pdNbSpecies S ((pairZip pairs' sp' shifts' dvs').getD p pdDflt)
          == C.all_species.getD s 0) := by
    apply List.filter_congr
    intro p hp
    rw [pairZip_getD pairs' sp' shifts' dvs' hlen h2 h3 p
      (List.mem_range.1 hp)]
    rfl
  rw [hfil]
  congr 1
  apply List.map_congr_left
  intro p hp
  have hp' : p < pairs'.length :=
    List.mem_range.1 (List.mem_filter.1 hp).1
  rw [ve_values_getD_eq_pd C S shifts' pairs' sp' dvs' hmem hA hlen h2 h3
    l hl p hp']

/-- The alchemical-mode coefficient of atom `i` as a sum over the list of
per-pair records. -/
theorem alch_coeff_zip_sum (C : Calc) (S : List AtomStructure)
    (shifts' : List (Int × Int × Int)) (pairs' : List (Nat × Nat))
    (sp' : List Nat) (dvs' : List (ℚ × ℚ × ℚ)) (hws : C.WellShaped)
    (hal : C.is_alchemical = true)
    (hA : ∀ st ∈ S, 0 < st.species.length)
    (hmem : ∀ x, x ∈ sp' ↔ x < S.length)
    (hlen : pairs'.length = sp'.length) (h2 : shifts'.length = sp'.length)
    (h3 : dvs'.length = sp'.length) (res : SETensorMap)
    (hres : spherical_expansion C (collSpecies S) shifts' (collCenters S)
      pairs' (collSC S) sp' dvs' = some res) (i l m col : Nat)
    (hi : i < (collSpecies S).length)
    (ha : (collSpecies S).getD i 0 ∈ C.all_species) (hl : l < C.l_max + 1)
    (hm : m < 2 * l + 1) (hcol : col < C.n_pseudo_species * C.n_radial l) :
    entry2 (atomRowOf C (collSpecies S) res i l) m col =
      (((pairZip pairs' sp' shifts' dvs').filter (fun q =>
          pdCenterIdx S q == i)).map
        (fun q => entry2 (pdVeRow C S l q) m col)).sum := by
  rw [alch_forward_coeff_sum C S shifts' pairs' sp' dvs' hws hal hA hmem
    hlen res hres i l m col hi ha hl hm hcol]
  have hZ : (pairZip pairs' sp' shifts' dvs').length = pairs'.length :=
    pairZip_length pairs' sp' shifts' dvs' hlen h2 h3
  rw [← range_filter_map_eq_list (pairZip pairs' sp' shifts' dvs')
    (fun q => pdCenterIdx S q == i)
    (fun q => entry2 (pdVeRow C S l q) m col) pdDflt, hZ]
  have hfil : (List.range pairs'.length).filter (fun p =>
      flatCenterIdx S sp' pairs' p == i) =
      (List.range pairs'.length).filter (fun p =>
        pdCenterIdx S ((pairZip pairs' sp' shifts' dvs').getD p pdDflt)
          == i) := by
    apply List.filter_congr
    intro p hp
    rw [pairZip_getD pairs' sp' shifts' dvs' hlen h2 h3 p
      (List.mem_range.1 hp)]
    rfl
  rw [hfil]
  congr 1
  apply List.map_congr_left
  intro p hp
  have hp' : p < pairs'.length :=
    List.mem_range.1 (List.mem_filter.1 hp).1
  rw [ve_values_getD_eq_pd C S shifts' pairs' sp' dvs' hmem hA hlen h2 h3
    l hl p hp']

/-! ## Shapes of the assembled blocks -/

theorem mComponents_length (l : Nat) : (mComponents l).length = 2 * l + 1 := by
  unfold mComponents
  exact (List.length_map _ _).trans (List.length_range _)

theorem whereEq_nodup (species : List Int) (a : Int) :
    (whereEq species a).Nodup := by
  unfold whereEq
  exact (List.nodup_range _).filter _

theorem sum_indicator_unique (as : List Int) (a0 : Int) (f : Int → Nat)
    (ha0 : a0 ∈ as) (hf : ∀ a ∈ as, f a = if a = a0 then 1 else 0)
    (hnd : as.Nodup) : (as.map f).sum = 1 := by
  induction as with
  | nil => simp at ha0
  | cons a rest ih =>
    rw [List.map_cons, List.sum_cons]
    by_cases ha : a = a0
    · subst ha
      rw [hf a (by simp), if_pos rfl]
      have hz : (rest.map f).sum = 0 := by
        apply List.sum_eq_zero
        intro x hx
        obtain ⟨b, hb, rfl⟩ := List.mem_map.1 hx
        rw [hf b (by simp [hb]), if_neg]
        intro hba
        subst hba
        exact (List.nodup_cons.1 hnd).1 hb
      omega
    · rw [hf a (by simp), if_neg ha]
      have ha0' : a0 ∈ rest := by
        rcases List.mem_cons.1 ha0 with h | h
        · exact absurd h.symm ha
        · exact h
      rw [ih ha0' (fun b hb => hf b (by simp [hb]))
        (List.nodup_cons.1 hnd).2]

/-- Each center slab of the canonicalized discrete densities has `2l+1`
rows of `n_species * n_radial` columns. -/
theorem densities_disc_elem_shape (C : Calc) (expanded : List VEBlock)
    (didx : List Nat) (n_centers n_species l : Nat) (hl : l < C.l_max + 1)
    (hsrc : ∀ A ∈ (expanded.getD l default).values,
      HasShape (2 * l + 1) (C.n_radial l) A) (c : Nat) (hc : c < n_centers) :
    HasShape (2 * l + 1) (n_species * C.n_radial l)
      (((densities_disc C expanded didx n_centers n_species).getD l
        []).getD c []) := by
  rw [densities_disc_getD C expanded didx n_centers n_species l hl,
    getD_map_lt _ _ c (by simpa using hc) 0 [], getD_range_lt _ c hc 0]
  constructor
  · simp
  · intro row hrow
    obtain ⟨m, hm, rfl⟩ := List.mem_map.1 hrow
    have hm' : m < 2 * l + 1 := List.mem_range.1 hm
    rw [List.length_flatten]
    have hrep : (((List.range n_species).map (fun s =>
        ((disc_acc C expanded didx n_centers n_species l).getD
          (c * n_species + s) []).getD m [])).map List.length) =
        List.replicate n_species (C.n_radial l) := by
      rw [List.map_map, List.eq_replicate_iff]
      refine ⟨by simp, ?_⟩
      intro b hb
      obtain ⟨s, hs, rfl⟩ := List.mem_map.1 hb
      have hs' : s < n_species := List.mem_range.1 hs
      have hkin : c * n_species + s < n_centers * n_species := by
        have hmul : (c + 1) * n_species ≤ n_centers * n_species :=
          Nat.mul_le_mul_right n_species hc
        have hexp : (c + 1) * n_species = c * n_species + n_species := by
          ring
        omega
      simp only [Function.comp_apply]
      refine HasShape_row_length
        (disc_acc_shapes C expanded didx n_centers n_species l hsrc _
          (getD_mem _ _ _ ?_)) m hm'
      rw [disc_acc_length]
      omega
    rw [hrep, List.sum_replicate, smul_eq_mul]

/-- Each center slab of the alchemical densities has `2l+1` rows of
`n_pseudo * n_radial` columns. -/
theorem densities_alch_elem_shape (C : Calc) (expanded : List VEBlock)
    (didx : List Nat) (n_centers l : Nat) (hl : l < C.l_max + 1)
    (hsrc : ∀ A ∈ (expanded.getD l default).values,
      HasShape (2 * l + 1) (C.n_pseudo_species * C.n_radial l) A)
    (c : Nat) (hc : c < n_centers) :
    HasShape (2 * l + 1) (C.n_pseudo_species * C.n_radial l)
      (((densities_alch C expanded didx n_centers).getD l []).getD c
        []) := by
  rw [densities_alch_getD C expanded didx n_centers l hl]
  have hshapes := index_add_shapes
    (List.replicate n_centers
      (zerosMat (2 * l + 1) (C.n_pseudo_species * C.n_radial l))) didx
    (expanded.getD l default).values
    (fun A hA => by
      rw [List.eq_of_mem_replicate hA]
      exact zerosMat_shape _ _) hsrc
  apply hshapes
  apply getD_mem
  rw [index_add_length]
  simpa using hc

/-- Computed-index characterization of the discrete-mode output, valid for
any raw batch (no assumption that the computed offsets are correct): atom
`i`'s degree-`l` row at `(m, s * n_radial + n)` is the sum of the degree-`l`
vector-expansion entries over the pairs whose computed density index is
`i * n_species + s`. -/
theorem disc_forward_coeff_sum_computed (C : Calc) (species : List Int)
    (cell_shifts : List (Int × Int × Int)) (centers : List Nat)
    (pairs : List (Nat × Nat)) (sc sp : List Nat)
    (dvs : List (ℚ × ℚ × ℚ)) (hws : C.WellShaped)
    (hal : C.is_alchemical = false) (aj : List Nat)
    (haj : aj_shifts? C (get_cartesian_vectors species cell_shifts pairs
      sc sp dvs).samples pairs.length = some aj) (res : SETensorMap)
    (hres : spherical_expansion C species cell_shifts centers pairs sc sp
      dvs = some res) (hclen : centers.length = species.length)
    (hsplen : sp.length = pairs.length) (i l m s n : Nat)
    (hi : i < species.length)
    (ha : species.getD i 0 ∈ C.all_species) (hl : l < C.l_max + 1)
    (hm : m < 2 * l + 1) (hs : s < C.all_species.length)
    (hn : n < C.n_radial l) :
    entry2 (atomRowOf C species res i l) m (s * C.n_radial l + n) =
      (((List.range pairs.length).filter (fun p =>
          (List.zipWith (fun c ch => c * C.all_species.length + ch)
            (s_i_metadata_to_unique sc sp pairs) aj).getD p 0 ==
            i * C.all_species.length + s)).map
        (fun p => entry2 (((vector_expansion C species cell_shifts pairs
          sc sp dvs).getD l default).values.getD p []) m n)).sum := by
  have hdisc := spherical_expansion_disc_eq C hal species cell_shifts
    centers pairs sc sp dvs
  rw [haj] at hdisc
  rw [hdisc] at hres
  have hres2 : res = assembleBlocks C species
      (List.zip sc centers)
      (densities_disc C (vector_expansion C species cell_shifts pairs sc
        sp dvs)
        (List.zipWith (fun c s => c * C.all_species.length + s)
          (s_i_metadata_to_unique sc sp pairs) aj)
        centers.length C.all_species.length)
      (vector_expansion C species cell_shifts pairs sc sp dvs)
      C.all_species := (Option.some.inj hres).symm
  subst hres2
  obtain ⟨hajlen, _⟩ := aj_shifts?_some C _ _ aj haj
  have hschlt : C.all_species.indexOf (species.getD i 0) <
      C.all_species.length := List.indexOf_lt_length.2 ha
  unfold atomRowOf
  rw [assembleBlocks_blocks_getD C species _ _ _ _ l _ hl hschlt]
  simp only
  have haeq : C.all_species.getD
      (C.all_species.indexOf (species.getD i 0)) 0 = species.getD i 0 := by
    rw [List.getD_eq_getElem _ _ (by omega)]
    exact List.getElem_indexOf (by omega)
  rw [haeq, whereEq_map_getD_indexOf species _ i hi rfl _ []]
  have hexp := vector_expansion_getD C species cell_shifts pairs sc sp
    dvs l hl
  have hsrc : ∀ A ∈ ((vector_expansion C species cell_shifts pairs sc sp
      dvs).getD l default).values, HasShape (2 * l + 1) (C.n_radial l)
      A := by
    rw [hexp]
    intro A hA'
    obtain ⟨p, _, rfl⟩ := List.mem_map.1 hA'
    exact veRow_shape_disc C hws hal l _ _
  have hvlen : ((vector_expansion C species cell_shifts pairs sc sp
      dvs).getD l default).values.length = pairs.length := by
    rw [hexp]
    simp
  have hsIlen : (s_i_metadata_to_unique sc sp pairs).length =
      pairs.length := by
    unfold s_i_metadata_to_unique
    rw [List.length_zipWith, length_pairs_offset, hsplen]
    simp
  have hdlen : (List.zipWith (fun c s => c * C.all_species.length + s)
      (s_i_metadata_to_unique sc sp pairs) aj).length = pairs.length := by
    rw [List.length_zipWith, hsIlen, hajlen]
    simp
  have hentry : entry2 (((densities_disc C (vector_expansion C species
      cell_shifts pairs sc sp dvs)
      (List.zipWith (fun c s => c * C.all_species.length + s)
        (s_i_metadata_to_unique sc sp pairs) aj)
      centers.length C.all_species.length).getD l []).getD i []) m
      (s * C.n_radial l + n) =
      entry3 (disc_acc C (vector_expansion C species cell_shifts pairs sc
        sp dvs)
        (List.zipWith (fun c s => c * C.all_species.length + s)
          (s_i_metadata_to_unique sc sp pairs) aj)
        centers.length C.all_species.length l)
        (i * C.all_species.length + s) m n := by
    exact densities_disc_entry C _ _ _ _ l hl
      (disc_acc_shapes C _ _ _ _ l hsrc) i m s n (by omega) hm hs hn
  rw [hentry, disc_acc_entry C _ _ centers.length C.all_species.length l
    pairs.length hsrc hvlen hdlen (i * C.all_species.length + s) m n
    (by
      have h2 : (i + 1) * C.all_species.length ≤
          centers.length * C.all_species.length := by
        apply Nat.mul_le_mul_right
        omega
      have h3 : (i + 1) * C.all_species.length =
          i * C.all_species.length + C.all_species.length := by ring
      omega) hm hn]

/-! ## Concrete instances for the boundary-behavior evaluations -/

/-- A minimal discrete-mode calculator: species vocabulary `[1]`,
`l_max = 0`, one radial channel, constant unit providers. -/
def cexCalc : Calc :=
  { all_species := [1]
    l_max := 0
    is_alchemical := false
    n_pseudo_species := 0
    n_radial := fun _ => 1
    sh := fun l _ => List.replicate (2 * l + 1) 1
    radialD := fun _ _ _ => [1]
    radialA := fun _ _ _ => [] }

theorem cexCalc_wellShaped : cexCalc.WellShaped := by
  refine ⟨?_, ?_, ?_⟩
  · intro l v
    simp [cexCalc]
  · intro l r2 meta
    simp [cexCalc]
  · intro l r2 meta
    refine ⟨rfl, ?_⟩
    intro row hrow
    simp [cexCalc] at hrow

/-- One isolated atom of species `1`: a structure contributing zero
pairs. -/
def stIso : AtomStructure :=
  { species := [1], pairs := [], shifts := [], dvs := [] }

/-- Two atoms of species `1` with both ordered pairs. -/
def stPair : AtomStructure :=
  { species := [1, 1], pairs := [(0, 1), (1, 0)]
    shifts := [(0, 0, 0), (0, 0, 0)], dvs := [(1, 0, 0), (-1, 0, 0)] }

/-- Two atoms, the neighbor one of species `9`, absent from the `[1]`
vocabulary. -/
def stBadNb : AtomStructure :=
  { species := [1, 9], pairs := [(0, 1)], shifts := [(0, 0, 0)]
    dvs := [(1, 0, 0)] }

/-- One isolated atom of species `7`, absent from the `[1]` vocabulary. -/
def stIso7 : AtomStructure :=
  { species := [7], pairs := [], shifts := [], dvs := [] }

/-- Two atoms of species `1` with the single pair `(1, 0)`. -/
def stPair10 : AtomStructure :=
  { species := [1, 1], pairs := [(1, 0)], shifts := [(0, 0, 0)]
    dvs := [(1, 0, 0)] }

/-- `SphericalExpansion.forward` applied to the collation of `S`. -/
def forwardColl (C : Calc) (S : List AtomStructure) : Option SETensorMap :=
  spherical_expansion C (collSpecies S) (collShifts S) (collCenters S)
    (collPairs S) (collSC S) (collSP S) (collDvs S)

theorem isSome_IsoPair :
    (forwardColl cexCalc [stIso, stPair]).isSome = true := by decide

/-- The output `TensorMap` of the batch `[stIso, stPair]`. -/
def resIsoPair : SETensorMap :=
  (forwardColl cexCalc [stIso, stPair]).get isSome_IsoPair

theorem hres_IsoPair :
    forwardColl cexCalc [stIso, stPair] = some resIsoPair :=
  (Option.some_get isSome_IsoPair).symm

theorem isSome_Iso : (forwardColl cexCalc [stIso]).isSome = true := by
  decide

/-- The output `TensorMap` of the single-structure batch `[stIso]`. -/
def resIso : SETensorMap := (forwardColl cexCalc [stIso]).get isSome_Iso

theorem hres_Iso : forwardColl cexCalc [stIso] = some resIso :=
  (Option.some_get isSome_Iso).symm

/-- For the unit providers of `cexCalc`, every degree-0 vector-expansion
entry is `1`. -/
theorem cex_ve_entry (species : List Int)
    (cell_shifts : List (Int × Int × Int)) (pairs : List (Nat × Nat))
    (sc sp : List Nat) (dvs : List (ℚ × ℚ × ℚ)) (p : Nat)
    (hp : p < pairs.length) :
    entry2 (((vector_expansion cexCalc species cell_shifts pairs sc sp
      dvs).getD 0 default).values.getD p []) 0 0 = 1 := by
  rw [vector_expansion_getD cexCalc species cell_shifts pairs sc sp dvs 0
    (by omega)]
  simp only
  rw [getD_map_lt _ _ p (by simpa using hp) 0 [], getD_range_lt _ p hp 0,
    veRow_entry_disc cexCalc rfl 0 _ _ 0 0 (by simp [cexCalc])
      (by simp [cexCalc])]
  show (1 : ℚ) * 1 = 1
  norm_num

/-- The buggy offset arithmetic routes both pairs of `stPair` (flat atoms
1 and 2) to computed centers 0 and 1: the isolated atom receives the first
pair's contribution, value `1`. -/
theorem entry_IsoPair_atom0 :
    entry2 (atomRowOf cexCalc (collSpecies [stIso, stPair]) resIsoPair
      0 0) 0 0 = 1 := by
  have h := disc_forward_coeff_sum_computed cexCalc
    (collSpecies [stIso, stPair]) (collShifts [stIso, stPair])
    (collCenters [stIso, stPair]) (collPairs [stIso, stPair])
    (collSC [stIso, stPair]) (collSP [stIso, stPair])
    (collDvs [stIso, stPair]) cexCalc_wellShaped rfl [0, 0] (by decide)
    resIsoPair hres_IsoPair (by decide) (by decide) 0 0 0 0 0 (by decide)
    (by decide) (by decide) (by decide) (by decide) (by decide)
  simp only [Nat.zero_mul, Nat.zero_add] at h
  rw [h]
  have hfil : (List.range (collPairs [stIso, stPair]).length).filter
      (fun p => (List.zipWith
        (fun c ch => c * cexCalc.all_species.length + ch)
        (s_i_metadata_to_unique (collSC [stIso, stPair])
          (collSP [stIso, stPair]) (collPairs [stIso, stPair]))
        [0, 0]).getD p 0 == 0) = [0] := by decide
  rw [hfil, List.map_cons, List.map_nil, List.sum_cons, List.sum_nil,
    cex_ve_entry _ _ _ _ _ _ 0 (by decide)]
  norm_num

/-- Running the isolated atom alone gives it the zero row. -/
theorem entry_Iso_atom0 :
    entry2 (atomRowOf cexCalc (collSpecies [stIso]) resIso 0 0) 0 0
      = 0 := by
  have h := disc_forward_coeff_sum_computed cexCalc (collSpecies [stIso])
    (collShifts [stIso]) (collCenters [stIso]) (collPairs [stIso])
    (collSC [stIso]) (collSP [stIso]) (collDvs [stIso])
    cexCalc_wellShaped rfl [] (by decide) resIso hres_Iso (by decide)
    (by decide) 0 0 0 0 0 (by decide) (by decide) (by decide) (by decide)
    (by decide) (by decide)
  simp only [Nat.zero_mul, Nat.zero_add] at h
  rw [h]
  rfl

/-! ## The claims -/

/-- **C8** (Vector Expansion row guarantee): for every input batch and
every degree `l ∈ {0, …, l_max}`, `VectorExpansion.forward` returns one
block per degree; the degree-`l` block has exactly one value row per input
pair; its sample metadata is the `get_cartesian_vectors` pair metadata, in
input order; and row `p` is exactly the outer-product row of pair `p` — no
row reordering occurs in this component. -/
theorem C8_vector_expansion_rows (C : Calc) (species : List Int)
    (cell_shifts : List (Int × Int × Int)) (pairs : List (Nat × Nat))
    (sc sp : List Nat) (dvs : List (ℚ × ℚ × ℚ)) (l : Nat)
    (hl : l < C.l_max + 1) :
    (vector_expansion C species cell_shifts pairs sc sp dvs).length =
      C.l_max + 1 ∧
    ((vector_expansion C species cell_shifts pairs sc sp dvs).getD l
      default).values.length = pairs.length ∧
    ((vector_expansion C species cell_shifts pairs sc sp dvs).getD l
      default).samples =
      (get_cartesian_vectors species cell_shifts pairs sc sp dvs).samples ∧
    (∀ p, p < pairs.length →
      ((vector_expansion C species cell_shifts pairs sc sp dvs).getD l
        default).values.getD p [] =
        veRow C l (dvs.getD p (0, 0, 0))
          ((get_cartesian_vectors species cell_shifts pairs sc sp
            dvs).samples.getD p default)) := by
  refine ⟨vector_expansion_length C species cell_shifts pairs sc sp dvs,
    ?_, ?_, ?_⟩
  · rw [vector_expansion_getD C species cell_shifts pairs sc sp dvs l hl]
    simp
  · rw [vector_expansion_getD C species cell_shifts pairs sc sp dvs l hl]
  · intro p hp
    rw [vector_expansion_getD C species cell_shifts pairs sc sp dvs l hl]
    simp only
    rw [getD_map_lt _ _ p (by simpa using hp) 0 [],
      getD_range_lt _ p hp 0]

theorem C8_vector_expansion_rows_witness :
    ((vector_expansion cexCalc (collSpecies [stPair])
      (collShifts [stPair]) (collPairs [stPair]) (collSC [stPair])
      (collSP [stPair]) (collDvs [stPair])).getD 0 default).values.length =
      (collPairs [stPair]).length :=
  (C8_vector_expansion_rows cexCalc (collSpecies [stPair])
    (collShifts [stPair]) (collPairs [stPair]) (collSC [stPair])
    (collSP [stPair]) (collDvs [stPair]) 0 (by decide)).2.1

/-- **C5** (discrete-mode key construction and axis canonicalization):
(1) each pair's accumulation slot is the computed flat center index times
`n_species` plus the species channel of the pair's neighbor-species
metadata; (2) after reduction, the canonicalized densities read entry
`(c, m, s * n_radial + n)` from accumulator slot `c * n_species + s` at
`(m, n)` — the `[centers, species, 2l+1, n_radial]` →
`[centers, 2l+1, species, n_radial]` reorder plus flatten, so output
columns are species-major, radial-minor; (3) the output property label of
column `s * n_radial + n` is `(a1, n1, l1) = (all_species[s], n, l)`,
matching the pseudo-mode column convention. -/
theorem C5_discrete_keys_canonicalization (C : Calc) (species : List Int)
    (cell_shifts : List (Int × Int × Int)) (centers : List Nat)
    (pairs : List (Nat × Nat)) (sc sp : List Nat) (dvs : List (ℚ × ℚ × ℚ))
    (hws : C.WellShaped) (hal : C.is_alchemical = false)
    (hsplen : sp.length = pairs.length) (aj : List Nat)
    (haj : aj_shifts? C (get_cartesian_vectors species cell_shifts pairs
      sc sp dvs).samples pairs.length = some aj) :
    (∀ p, p < pairs.length →
      (List.zipWith (fun c ch => c * C.all_species.length + ch)
        (s_i_metadata_to_unique sc sp pairs) aj).getD p 0 =
      (s_i_metadata_to_unique sc sp pairs).getD p 0 *
        C.all_species.length +
        C.all_species.indexOf (((get_cartesian_vectors species cell_shifts
          pairs sc sp dvs).samples.getD p default).species_neighbor)) ∧
    (∀ l c m s n, l < C.l_max + 1 → c < centers.length → m < 2 * l + 1 →
      s < C.all_species.length → n < C.n_radial l →
      entry3 ((densities_disc C (vector_expansion C species cell_shifts
        pairs sc sp dvs)
        (List.zipWith (fun c ch => c * C.all_species.length + ch)
          (s_i_metadata_to_unique sc sp pairs) aj)
        centers.length C.all_species.length).getD l []) c m
        (s * C.n_radial l + n) =
      entry3 (disc_acc C (vector_expansion C species cell_shifts pairs sc
        sp dvs)
        (List.zipWith (fun c ch => c * C.all_species.length + ch)
          (s_i_metadata_to_unique sc sp pairs) aj)
        centers.length C.all_species.length l)
        (c * C.all_species.length + s) m n) ∧
    (∀ res, spherical_expansion C species cell_shifts centers pairs sc sp
        dvs = some res →
      ∀ l ch s n, l < C.l_max + 1 → ch < C.all_species.length →
        s < C.all_species.length → n < C.n_radial l →
        (res.blocks.getD (l * C.all_species.length + ch)
          default).properties.getD (s * C.n_radial l + n) (0, 0, 0) =
          (C.all_species.getD s 0, n, l)) := by
  obtain ⟨hajlen, hajval⟩ := aj_shifts?_some C _ _ aj haj
  refine ⟨?_, ?_, ?_⟩
  · intro p hp
    have hsIlen : (s_i_metadata_to_unique sc sp pairs).length =
        pairs.length := by
      unfold s_i_metadata_to_unique
      rw [List.length_zipWith, length_pairs_offset, hsplen]
      simp
    rw [getD_zipWith_lt _ _ _ p (by omega) (by omega) 0 0 0,
      (hajval p hp).2]
  · intro l c m s n hl hc hm hs hn
    have hsrc : ∀ A ∈ ((vector_expansion C species cell_shifts pairs sc
        sp dvs).getD l default).values,
        HasShape (2 * l + 1) (C.n_radial l) A := by
      rw [vector_expansion_getD C species cell_shifts pairs sc sp dvs l
        hl]
      intro A hA'
      obtain ⟨p, _, rfl⟩ := List.mem_map.1 hA'
      exact veRow_shape_disc C hws hal l _ _
    exact densities_disc_entry C _ _ _ _ l hl
      (disc_acc_shapes C _ _ _ _ l hsrc) c m s n hc hm hs hn
  · intro res hres l ch s n hl hch hs hn
    have hdisc := spherical_expansion_disc_eq C hal species cell_shifts
      centers pairs sc sp dvs
    rw [haj] at hdisc
    rw [hdisc] at hres
    have hres2 := (Option.some.inj hres).symm
    subst hres2
    rw [assembleBlocks_blocks_getD C species _ _ _ _ l ch hl hch]
    simp only
    have hbn : veBlockN ((vector_expansion C species cell_shifts pairs
        sc sp dvs).getD l default) = List.range (C.n_radial l) := by
      apply veBlockN_disc C hal l
      rw [vector_expansion_getD C species cell_shifts pairs sc sp dvs l
        hl]
    rw [hbn]
    rw [flatMap_getD_uniform C.all_species _ (C.n_radial l)
      (fun a _ => by simp) s n hs hn (0, 0, 0) 0]
    rw [getD_map_lt _ _ n (by simpa using hn) 0 (0, 0, 0),
      getD_range_lt _ n hn 0]

theorem C5_discrete_keys_canonicalization_witness :
    (List.zipWith (fun c ch => c * cexCalc.all_species.length + ch)
      (s_i_metadata_to_unique (collSC [stPair]) (collSP [stPair])
        (collPairs [stPair])) [0, 0]).getD 0 0 =
    (s_i_metadata_to_unique (collSC [stPair]) (collSP [stPair])
      (collPairs [stPair])).getD 0 0 * cexCalc.all_species.length +
      cexCalc.all_species.indexOf (((get_cartesian_vectors
        (collSpecies [stPair]) (collShifts [stPair]) (collPairs [stPair])
        (collSC [stPair]) (collSP [stPair])
        (collDvs [stPair])).samples.getD 0
          default).species_neighbor) :=
  (C5_discrete_keys_canonicalization cexCalc (collSpecies [stPair])
    (collShifts [stPair]) (collCenters [stPair]) (collPairs [stPair])
    (collSC [stPair]) (collSP [stPair]) (collDvs [stPair])
    cexCalc_wellShaped rfl (by decide) [0, 0] (by decide)).1 0 (by decide)

/-- **C3** (completeness of output keys): for every input batch whose
species all lie in the vocabulary (and whose metadata species reads are in
range), `SphericalExpansion.forward` succeeds; the key list of the result
is exactly `all_species × {0, …, l_max}` with `sigma = 1`, emitted in
degree-major, species-minor order; there is one block per key; the block
at `(l, s)` is keyed `(all_species[s], l, 1)` and its sample rows are the
`(structure, center)` labels of the atoms of that species in atom order;
and every atom of the batch appears in exactly one row of exactly one
block per degree. -/
theorem C3_keys_complete (C : Calc) (species : List Int)
    (cell_shifts : List (Int × Int × Int)) (centers : List Nat)
    (pairs : List (Nat × Nat)) (sc sp : List Nat)
    (dvs : List (ℚ × ℚ × ℚ)) (hnd : C.all_species.Nodup)
    (hvoc : ∀ i, i < species.length → species.getD i 0 ∈ C.all_species)
    (hinr : ∀ p, p < pairs.length →
      (pairs.getD p (0, 0)).2 + (pairs_offset sc sp).getD p 0 <
        species.length) :
    (spherical_expansion C species cell_shifts centers pairs sc sp
      dvs).isSome = true ∧
    (∀ res, spherical_expansion C species cell_shifts centers pairs sc sp
        dvs = some res →
      res.keys = (List.range (C.l_max + 1)).flatMap (fun l =>
        C.all_species.map (fun a => (a, l, (1 : Int)))) ∧
      res.blocks.length = (C.l_max + 1) * C.all_species.length ∧
      (∀ l s, l < C.l_max + 1 → s < C.all_species.length →
        (res.blocks.getD (l * C.all_species.length + s) default).a_i =
          C.all_species.getD s 0 ∧
        (res.blocks.getD (l * C.all_species.length + s) default).lam = l ∧
        (res.blocks.getD (l * C.all_species.length + s) default).sigma
          = 1 ∧
        (res.blocks.getD (l * C.all_species.length + s) default).samples =
          (whereEq species (C.all_species.getD s 0)).map
            (fun i => (List.zip sc centers).getD i (0, 0)))) ∧
    (∀ i, i < species.length →
      (C.all_species.map (fun a => (whereEq species a).count i)).sum
        = 1) := by
  have hmeta : ∀ p, p < pairs.length →
      ((get_cartesian_vectors species cell_shifts pairs sc sp
        dvs).samples.getD p default).species_neighbor ∈ C.all_species := by
    intro p hp
    rw [cart_samples_getD _ _ _ _ _ _ p hp]
    exact hvoc _ (hinr p hp)
  refine ⟨?_, ?_, ?_⟩
  · cases hmode : C.is_alchemical with
    | true =>
      rw [spherical_expansion_alch_eq C hmode species cell_shifts centers
        pairs sc sp dvs]
      rfl
    | false =>
      rw [spherical_expansion_disc_eq C hmode species cell_shifts centers
        pairs sc sp dvs]
      have hsome := aj_shifts?_isSome C
        (get_cartesian_vectors species cell_shifts pairs sc sp
          dvs).samples pairs.length hmeta
      cases haj : aj_shifts? C (get_cartesian_vectors species cell_shifts
          pairs sc sp dvs).samples pairs.length with
      | none => rw [haj] at hsome; exact absurd hsome (by simp)
      | some aj => rfl
  · intro res hres
    have hfields : ∀ (usi : List (Nat × Nat)) (densities : List (List Mat))
        (expanded : List VEBlock) (uspecies : List Int),
        res = assembleBlocks C species usi densities expanded uspecies →
        usi = List.zip sc centers →
        res.keys = (List.range (C.l_max + 1)).flatMap (fun l =>
          C.all_species.map (fun a => (a, l, (1 : Int)))) ∧
        res.blocks.length = (C.l_max + 1) * C.all_species.length ∧
        (∀ l s, l < C.l_max + 1 → s < C.all_species.length →
          (res.blocks.getD (l * C.all_species.length + s) default).a_i =
            C.all_species.getD s 0 ∧
          (res.blocks.getD (l * C.all_species.length + s) default).lam
            = l ∧
          (res.blocks.getD (l * C.all_species.length + s) default).sigma
            = 1 ∧
          (res.blocks.getD (l * C.all_species.length + s)
            default).samples =
            (whereEq species (C.all_species.getD s 0)).map
              (fun i => (List.zip sc centers).getD i (0, 0))) := by
      rintro usi densities expanded uspecies rfl rfl
      refine ⟨assembleBlocks_keys C species _ densities expanded uspecies,
        assembleBlocks_blocks_length C species _ densities expanded
          uspecies, ?_⟩
      intro l s hl hs
      rw [assembleBlocks_blocks_getD C species _ densities expanded
        uspecies l s hl hs]
      exact ⟨rfl, rfl, rfl, rfl⟩
    cases hmode : C.is_alchemical with
    | true =>
      rw [spherical_expansion_alch_eq C hmode species cell_shifts centers
        pairs sc sp dvs] at hres
      exact hfields _ _ _ _ (Option.some.inj hres).symm rfl
    | false =>
      have hdisc := spherical_expansion_disc_eq C hmode species
        cell_shifts centers pairs sc sp dvs
      have hsome := aj_shifts?_isSome C
        (get_cartesian_vectors species cell_shifts pairs sc sp
          dvs).samples pairs.length hmeta
      cases haj : aj_shifts? C (get_cartesian_vectors species cell_shifts
          pairs sc sp dvs).samples pairs.length with
      | none => rw [haj] at hsome; exact absurd hsome (by simp)
      | some aj =>
        rw [haj] at hdisc
        rw [hdisc] at hres
        exact hfields _ _ _ _ (Option.some.inj hres).symm rfl
  · intro i hi
    apply sum_indicator_unique C.all_species (species.getD i 0) _
      (hvoc i hi) _ hnd
    intro a _
    by_cases hai : a = species.getD i 0
    · rw [if_pos hai]
      apply List.count_eq_one_of_mem (whereEq_nodup species a)
      exact (mem_whereEq species a i).2 ⟨hi, hai.symm⟩
    · rw [if_neg hai]
      rw [List.count_eq_zero]
      intro hmem
      exact hai (((mem_whereEq species a i).1 hmem).2).symm

theorem C3_keys_complete_witness :
    (spherical_expansion cexCalc (collSpecies [stPair])
      (collShifts [stPair]) (collCenters [stPair]) (collPairs [stPair])
      (collSC [stPair]) (collSP [stPair])
      (collDvs [stPair])).isSome = true :=
  (C3_keys_complete cexCalc (collSpecies [stPair]) (collShifts [stPair])
    (collCenters [stPair]) (collPairs [stPair]) (collSC [stPair])
    (collSP [stPair]) (collDvs [stPair]) (by decide) (by decide)
    (by decide)).1

/-- **C4** (shape invariant): for every input batch and every output block
at degree `l` and species channel `s`, the block's row count equals the
number of atoms of that species across the batch, its component count is
`2l+1`, and every row is a `(2l+1) × (n_channels * n_radial l)` slab,
where `n_channels` is `n_species` in discrete mode and `n_pseudo` in
pseudo-species mode. -/
theorem C4_block_shapes (C : Calc) (species : List Int)
    (cell_shifts : List (Int × Int × Int)) (centers : List Nat)
    (pairs : List (Nat × Nat)) (sc sp : List Nat)
    (dvs : List (ℚ × ℚ × ℚ)) (hws : C.WellShaped)
    (hclen : centers.length = species.length) :
    ∀ res, spherical_expansion C species cell_shifts centers pairs sc sp
        dvs = some res →
      ∀ l s, l < C.l_max + 1 → s < C.all_species.length →
        (res.blocks.getD (l * C.all_species.length + s)
          default).values.length =
          species.count (C.all_species.getD s 0) ∧
        (res.blocks.getD (l * C.all_species.length + s)
          default).components.length = 2 * l + 1 ∧
        (∀ M ∈ (res.blocks.getD (l * C.all_species.length + s)
            default).values,
          HasShape (2 * l + 1)
            ((if C.is_alchemical then C.n_pseudo_species
              else C.all_species.length) * C.n_radial l) M) := by
  intro res hres l s hl hs
  cases hmode : C.is_alchemical with
  | true =>
    rw [spherical_expansion_alch_eq C hmode species cell_shifts centers
      pairs sc sp dvs] at hres
    have hres2 := (Option.some.inj hres).symm
    subst hres2
    rw [assembleBlocks_blocks_getD C species _ _ _ _ l s hl hs]
    simp only
    have hsrc : ∀ A ∈ ((vector_expansion C species cell_shifts pairs sc
        sp dvs).getD l default).values,
        HasShape (2 * l + 1) (C.n_pseudo_species * C.n_radial l) A := by
      rw [vector_expansion_getD C species cell_shifts pairs sc sp dvs l
        hl]
      intro A hA'
      obtain ⟨p, _, rfl⟩ := List.mem_map.1 hA'
      exact veRow_shape_alch C hws hmode l _ _
    refine ⟨?_, ?_, ?_⟩
    · rw [List.length_map]
      exact whereEq_length species _
    · rw [vector_expansion_getD C species cell_shifts pairs sc sp dvs l
        hl]
      exact mComponents_length l
    · intro M hM
      obtain ⟨i, hiw, rfl⟩ := List.mem_map.1 hM
      have hi : i < centers.length := by
        rw [hclen]
        exact whereEq_lt species _ i hiw
      rw [if_pos trivial]
      exact densities_alch_elem_shape C _ _ centers.length l hl hsrc i hi
  | false =>
    have hdisc := spherical_expansion_disc_eq C hmode species cell_shifts
      centers pairs sc sp dvs
    cases haj : aj_shifts? C (get_cartesian_vectors species cell_shifts
        pairs sc sp dvs).samples pairs.length with
    | none =>
      rw [haj] at hdisc
      rw [hdisc] at hres
      exact absurd hres (by simp)
    | some aj =>
      rw [haj] at hdisc
      rw [hdisc] at hres
      have hres2 := (Option.some.inj hres).symm
      subst hres2
      rw [assembleBlocks_blocks_getD C species _ _ _ _ l s hl hs]
      simp only
      have hsrc : ∀ A ∈ ((vector_expansion C species cell_shifts pairs
          sc sp dvs).getD l default).values,
          HasShape (2 * l + 1) (C.n_radial l) A := by
        rw [vector_expansion_getD C species cell_shifts pairs sc sp dvs
          l hl]
        intro A hA'
        obtain ⟨p, _, rfl⟩ := List.mem_map.1 hA'
        exact veRow_shape_disc C hws hmode l _ _
      refine ⟨?_, ?_, ?_⟩
      · rw [List.length_map]
        exact whereEq_length species _
      · rw [vector_expansion_getD C species cell_shifts pairs sc sp dvs
          l hl]
        exact mComponents_length l
      · intro M hM
        obtain ⟨i, hiw, rfl⟩ := List.mem_map.1 hM
        have hi : i < centers.length := by
          rw [hclen]
          exact whereEq_lt species _ i hiw
        simp only [Bool.false_eq_true, if_false]
        exact densities_disc_elem_shape C _ _ centers.length
          C.all_species.length l hl hsrc i hi

theorem isSome_Pair : (forwardColl cexCalc [stPair]).isSome = true := by
  decide

/-- The output `TensorMap` of the single-structure batch `[stPair]`. -/
def resPair : SETensorMap := (forwardColl cexCalc [stPair]).get isSome_Pair

theorem hres_Pair : forwardColl cexCalc [stPair] = some resPair :=
  (Option.some_get isSome_Pair).symm

theorem C4_block_shapes_witness :
    (resPair.blocks.getD (0 * cexCalc.all_species.length + 0)
      default).values.length =
      (collSpecies [stPair]).count (cexCalc.all_species.getD 0 0) :=
  ((C4_block_shapes cexCalc (collSpecies [stPair]) (collShifts [stPair])
    (collCenters [stPair]) (collPairs [stPair]) (collSC [stPair])
    (collSP [stPair]) (collDvs [stPair]) cexCalc_wellShaped (by decide)
    resPair hres_Pair 0 0 (by decide) (by decide)).1)

/-- **C2** (amended: reduction correctness, for batches in which every
structure contributes at least one atom and at least one pair): for every
center atom `i`, degree `l`, order `m` and channel, the output coefficient
is the exact sum of the degree-`l` vector-expansion values over exactly
the pairs whose center is atom `i` — and, in discrete mode, whose neighbor
species is the channel's species — no pair dropped, none double-counted;
and jointly permuting the per-pair input arrays does not change any
coefficient. -/
theorem C2_reduction_correctness (C : Calc) (S : List AtomStructure)
    (hws : C.WellShaped) (hnd : C.all_species.Nodup)
    (hA : ∀ st ∈ S, 0 < st.species.length)
    (hP : ∀ st ∈ S, 0 < st.pairs.length)
    (hsh : ∀ st ∈ S, st.shifts.length = st.pairs.length)
    (hdv : ∀ st ∈ S, st.dvs.length = st.pairs.length) :
    (C.is_alchemical = false →
      (∀ p, p < (collPairs S).length →
        pairNeighborSpecies S p ∈ C.all_species) →
      ∀ res, forwardColl C S = some res →
      ∀ i l m s n, i < (collSpecies S).length →
        (collSpecies S).getD i 0 ∈ C.all_species → l < C.l_max + 1 →
        m < 2 * l + 1 → s < C.all_species.length → n < C.n_radial l →
        entry2 (atomRowOf C (collSpecies S) res i l) m
          (s * C.n_radial l + n) =
        (((List.range (collPairs S).length).filter (fun p =>
            trueFlatCenter S p == i &&
            pairNeighborSpecies S p == C.all_species.getD s 0)).map
          (fun p => entry2 (((vector_expansion C (collSpecies S)
            (collShifts S) (collPairs S) (collSC S) (collSP S)
            (collDvs S)).getD l default).values.getD p []) m n)).sum) ∧
    (C.is_alchemical = true →
      ∀ res, forwardColl C S = some res →
      ∀ i l m col, i < (collSpecies S).length →
        (collSpecies S).getD i 0 ∈ C.all_species → l < C.l_max + 1 →
        m < 2 * l + 1 → col < C.n_pseudo_species * C.n_radial l →
        entry2 (atomRowOf C (collSpecies S) res i l) m col =
        (((List.range (collPairs S).length).filter (fun p =>
            trueFlatCenter S p == i)).map
          (fun p => entry2 (((vector_expansion C (collSpecies S)
            (collShifts S) (collPairs S) (collSC S) (collSP S)
            (collDvs S)).getD l default).values.getD p []) m col)).sum) ∧
    (C.is_alchemical = false →
      ∀ pairs₂ sp₂ shifts₂ dvs₂,
        (∀ x, x ∈ sp₂ ↔ x < S.length) →
        pairs₂.length = sp₂.length → shifts₂.length = sp₂.length →
        dvs₂.length = sp₂.length →
        (∀ p, p < pairs₂.length →
          neighborSpeciesOf S sp₂ pairs₂ p ∈ C.all_species) →
        (∀ p, p < (collPairs S).length →
          pairNeighborSpecies S p ∈ C.all_species) →
        (pairZip (collPairs S) (collSP S) (collShifts S)
          (collDvs S)).Perm (pairZip pairs₂ sp₂ shifts₂ dvs₂) →
        ∀ res res₂, forwardColl C S = some res →
          spherical_expansion C (collSpecies S) shifts₂ (collCenters S)
            pairs₂ (collSC S) sp₂ dvs₂ = some res₂ →
        ∀ i l m s n, i < (collSpecies S).length →
          (collSpecies S).getD i 0 ∈ C.all_species → l < C.l_max + 1 →
          m < 2 * l + 1 → s < C.all_species.length → n < C.n_radial l →
          entry2 (atomRowOf C (collSpecies S) res i l) m
            (s * C.n_radial l + n) =
          entry2 (atomRowOf C (collSpecies S) res₂ i l) m
            (s * C.n_radial l + n)) ∧
    (C.is_alchemical = true →
      ∀ pairs₂ sp₂ shifts₂ dvs₂,
        (∀ x, x ∈ sp₂ ↔ x < S.length) →
        pairs₂.length = sp₂.length → shifts₂.length = sp₂.length →
        dvs₂.length = sp₂.length →
        (pairZip (collPairs S) (collSP S) (collShifts S)
          (collDvs S)).Perm (pairZip pairs₂ sp₂ shifts₂ dvs₂) →
        ∀ res res₂, forwardColl C S = some res →
          spherical_expansion C (collSpecies S) shifts₂ (collCenters S)
            pairs₂ (collSC S) sp₂ dvs₂ = some res₂ →
        ∀ i l m col, i < (collSpecies S).length →
          (collSpecies S).getD i 0 ∈ C.all_species → l < C.l_max + 1 →
          m < 2 * l + 1 → col < C.n_pseudo_species * C.n_radial l →
          entry2 (atomRowOf C (collSpecies S) res i l) m col =
          entry2 (atomRowOf C (collSpecies S) res₂ i l) m col) := by
  have hmem1 : ∀ x, x ∈ collSP S ↔ x < S.length := mem_collSP S hP
  have hlen1 : (collPairs S).length = (collSP S).length :=
    collPairs_length_eq_collSP S
  have hsh1 : (collShifts S).length = (collSP S).length :=
    collShifts_length_eq_collSP S hsh
  have hdv1 : (collDvs S).length = (collSP S).length :=
    collDvs_length_eq_collSP S hdv
  refine ⟨?_, ?_, ?_, ?_⟩
  · intro hal hvoc res hres i l m s n hi ha hl hm hs hn
    exact disc_forward_coeff_sum C S (collShifts S) (collPairs S)
      (collSP S) (collDvs S) hws hal hnd hA hmem1 hlen1 hvoc res hres
      i l m s n hi ha hl hm hs hn
  · intro hal res hres i l m col hi ha hl hm hcol
    exact alch_forward_coeff_sum C S (collShifts S) (collPairs S)
      (collSP S) (collDvs S) hws hal hA hmem1 hlen1 res hres i l m col
      hi ha hl hm hcol
  · intro hal pairs₂ sp₂ shifts₂ dvs₂ hmem₂ hlen₂ hsh₂ hdv₂ hvoc₂ hvoc1
      hperm res res₂ hres hres₂ i l m s n hi ha hl hm hs hn
    rw [disc_coeff_zip_sum C S (collShifts S) (collPairs S) (collSP S)
        (collDvs S) hws hal hnd hA hmem1 hlen1 hsh1 hdv1 hvoc1 res hres
        i l m s n hi ha hl hm hs hn,
      disc_coeff_zip_sum C S shifts₂ pairs₂ sp₂ dvs₂ hws hal hnd hA
        hmem₂ hlen₂ hsh₂ hdv₂ hvoc₂ res₂ hres₂ i l m s n hi ha hl hm hs
        hn]
    exact List.Perm.sum_eq ((hperm.filter _).map _)
  · intro hal pairs₂ sp₂ shifts₂ dvs₂ hmem₂ hlen₂ hsh₂ hdv₂ hperm res
      res₂ hres hres₂ i l m col hi ha hl hm hcol
    rw [alch_coeff_zip_sum C S (collShifts S) (collPairs S) (collSP S)
        (collDvs S) hws hal hA hmem1 hlen1 hsh1 hdv1 res hres i l m col
        hi ha hl hm hcol,
      alch_coeff_zip_sum C S shifts₂ pairs₂ sp₂ dvs₂ hws hal hA hmem₂
        hlen₂ hsh₂ hdv₂ res₂ hres₂ i l m col hi ha hl hm hcol]
    exact List.Perm.sum_eq ((hperm.filter _).map _)

theorem C2_reduction_correctness_witness :
    entry2 (atomRowOf cexCalc (collSpecies [stPair]) resPair 0 0) 0
      (0 * cexCalc.n_radial 0 + 0) =
    (((List.range (collPairs [stPair]).length).filter (fun p =>
        trueFlatCenter [stPair] p == 0 &&
        pairNeighborSpecies [stPair] p ==
          cexCalc.all_species.getD 0 0)).map
      (fun p => entry2 (((vector_expansion cexCalc (collSpecies [stPair])
        (collShifts [stPair]) (collPairs [stPair]) (collSC [stPair])
        (collSP [stPair]) (collDvs [stPair])).getD 0
          default).values.getD p []) 0 0)).sum :=
  (C2_reduction_correctness cexCalc [stPair] cexCalc_wellShaped
    (by decide) (by decide) (by decide) (by decide) (by decide)).1 rfl
    (by decide) resPair hres_Pair 0 0 0 0 0 (by decide) (by decide)
    (by decide) (by decide) (by decide) (by decide)

/-- The claim C2 fails as stated on a valid batch whose first structure
contributes zero pairs: the isolated atom's coefficient is `1`, yet no
pair has it as its center and the claimed sum is therefore empty. -/
theorem C2_reduction_counterexample :
    entry2 (atomRowOf cexCalc (collSpecies [stIso, stPair]) resIsoPair
      0 0) 0 0 = 1 ∧
    ((List.range (collPairs [stIso, stPair]).length).filter (fun p =>
      trueFlatCenter [stIso, stPair] p == 0 &&
      pairNeighborSpecies [stIso, stPair] p ==
        cexCalc.all_species.getD 0 0) = []) ∧
    (1 : ℚ) ≠ 0 :=
  ⟨entry_IsoPair_atom0, by decide, by norm_num⟩

/-- **C7** (amended: for batches in which every structure contributes at
least one atom and one pair): if any pair's neighbor species is absent
from the configured vocabulary, the discrete-mode aggregator fails (the
dictionary lookup raises) instead of returning an output. -/
theorem C7_unknown_neighbor_fails (C : Calc) (S : List AtomStructure)
    (hal : C.is_alchemical = false)
    (hA : ∀ st ∈ S, 0 < st.species.length)
    (hP : ∀ st ∈ S, 0 < st.pairs.length)
    (hbad : ∃ p, p < (collPairs S).length ∧
      pairNeighborSpecies S p ∉ C.all_species) :
    forwardColl C S = none := by
  obtain ⟨p, hp, hnm⟩ := hbad
  unfold forwardColl
  rw [spherical_expansion_disc_eq C hal (collSpecies S) (collShifts S)
    (collCenters S) (collPairs S) (collSC S) (collSP S) (collDvs S)]
  have hnone : aj_shifts? C (get_cartesian_vectors (collSpecies S)
      (collShifts S) (collPairs S) (collSC S) (collSP S)
      (collDvs S)).samples (collPairs S).length = none := by
    rw [aj_shifts?_eq_none_iff]
    refine ⟨p, hp, ?_⟩
    rw [cart_species_neighbor_flat S (collShifts S) (collPairs S)
      (collSP S) (collDvs S) (mem_collSP S hP) hA
      (collPairs_length_eq_collSP S) p hp]
    exact hnm
  rw [hnone]

theorem C7_unknown_neighbor_fails_witness :
    forwardColl cexCalc [stBadNb] = none :=
  C7_unknown_neighbor_fails cexCalc [stBadNb] rfl (by decide) (by decide)
    ⟨0, by decide, by decide⟩

/-- The claim C7 fails as stated when a zero-pair structure precedes the
offending one: the pair's true neighbor species `9` is absent from the
vocabulary `[1]`, yet the forward pass succeeds (the corrupted metadata
reads species `1`). -/
theorem C7_unknown_neighbor_counterexample :
    pairNeighborSpecies [stIso, stBadNb] 0 = 9 ∧
    (9 : Int) ∉ cexCalc.all_species ∧
    (forwardColl cexCalc [stIso, stBadNb]).isSome = true := by decide

/-- **C9** (amended): an atom whose species is absent from the vocabulary
is indexed into no output block's rows; no error is raised in
pseudo-species mode; and in discrete mode no error is raised whenever
every structure contributes at least one pair and every pair's true
neighbor species is in the vocabulary (in particular, whenever the
unknown species never occurs as a neighbor). -/
theorem C9_unknown_center_omitted (C : Calc) (S : List AtomStructure)
    (i : Nat) (hnot : (collSpecies S).getD i 0 ∉ C.all_species) :
    (∀ a ∈ C.all_species, i ∉ whereEq (collSpecies S) a) ∧
    (∀ res, forwardColl C S = some res →
      ∀ l s, l < C.l_max + 1 → s < C.all_species.length →
        (res.blocks.getD (l * C.all_species.length + s) default).samples =
          (whereEq (collSpecies S) (C.all_species.getD s 0)).map
            (fun j => (List.zip (collSC S) (collCenters S)).getD j
              (0, 0))) ∧
    (C.is_alchemical = true → (forwardColl C S).isSome = true) ∧
    (C.is_alchemical = false →
      (∀ st ∈ S, 0 < st.species.length) →
      (∀ st ∈ S, 0 < st.pairs.length) →
      (∀ p, p < (collPairs S).length →
        pairNeighborSpecies S p ∈ C.all_species) →
      (forwardColl C S).isSome = true) := by
  refine ⟨?_, ?_, ?_, ?_⟩
  · intro a ha hmem
    obtain ⟨_, hsp⟩ := (mem_whereEq _ a i).1 hmem
    exact hnot (hsp ▸ ha)
  · intro res hres l s hl hs
    cases hmode : C.is_alchemical with
    | true =>
      rw [forwardColl, spherical_expansion_alch_eq C hmode (collSpecies S)
        (collShifts S) (collCenters S) (collPairs S) (collSC S)
        (collSP S) (collDvs S)] at hres
      have h2 := (Option.some.inj hres).symm
      subst h2
      rw [assembleBlocks_blocks_getD C (collSpecies S) _ _ _ _ l s hl hs]
    | false =>
      rw [forwardColl, spherical_expansion_disc_eq C hmode (collSpecies S)
        (collShifts S) (collCenters S) (collPairs S) (collSC S)
        (collSP S) (collDvs S)] at hres
      cases haj : aj_shifts? C (get_cartesian_vectors (collSpecies S)
          (collShifts S) (collPairs S) (collSC S) (collSP S)
          (collDvs S)).samples (collPairs S).length with
      | none =>
        rw [haj] at hres
        exact absurd hres (by simp)
      | some aj =>
        rw [haj] at hres
        have h2 := (Option.some.inj hres).symm
        subst h2
        rw [assembleBlocks_blocks_getD C (collSpecies S) _ _ _ _ l s hl
          hs]
  · intro hmode
    rw [forwardColl, spherical_expansion_alch_eq C hmode (collSpecies S)
      (collShifts S) (collCenters S) (collPairs S) (collSC S) (collSP S)
      (collDvs S)]
    rfl
  · intro hmode hA hP hvoc
    rw [forwardColl, spherical_expansion_disc_eq C hmode (collSpecies S)
      (collShifts S) (collCenters S) (collPairs S) (collSC S) (collSP S)
      (collDvs S)]
    have hsome := aj_shifts?_isSome C (get_cartesian_vectors
      (collSpecies S) (collShifts S) (collPairs S) (collSC S) (collSP S)
      (collDvs S)).samples (collPairs S).length (fun p hp => by
        rw [cart_species_neighbor_flat S (collShifts S) (collPairs S)
          (collSP S) (collDvs S) (mem_collSP S hP) hA
          (collPairs_length_eq_collSP S) p hp]
        exact hvoc p hp)
    cases haj : aj_shifts? C (get_cartesian_vectors (collSpecies S)
        (collShifts S) (collPairs S) (collSC S) (collSP S)
        (collDvs S)).samples (collPairs S).length with
    | none =>
      rw [haj] at hsome
      exact absurd hsome (by simp)
    | some aj => rfl

/-- An atom of unknown species `7` as the only center of its structure,
alongside a known-species pair. -/
def stC9w : AtomStructure :=
  { species := [7, 1], pairs := [(1, 1)], shifts := [(0, 0, 0)]
    dvs := [(1, 0, 0)] }

theorem C9_unknown_center_omitted_witness :
    (forwardColl cexCalc [stC9w]).isSome = true :=
  (C9_unknown_center_omitted cexCalc [stC9w] 0 (by decide)).2.2.2 rfl
    (by decide) (by decide) (by decide)

/-- The claim C9 fails as stated when a zero-pair structure holding the
unknown atom precedes a structure with pairs: atom `0` (species `7`) is
never a neighbor, yet the forward pass raises (the corrupted metadata
reads the unknown atom's species). -/
theorem C9_unknown_center_counterexample :
    (collSpecies [stIso7, stPair10]).getD 0 0 = 7 ∧
    (7 : Int) ∉ cexCalc.all_species ∧
    (∀ p, p < (collPairs [stIso7, stPair10]).length →
      trueFlatNeighbor [stIso7, stPair10] p ≠ 0 ∧
      pairNeighborSpecies [stIso7, stPair10] p ∈ cexCalc.all_species) ∧
    forwardColl cexCalc [stIso7, stPair10] = none := by decide

/-- **C1** (failing-input evaluation): on the batch
`[stIso, stPair]` — a zero-pair structure followed by a structure with
pairs — the batched forward pass assigns the isolated atom (flat index
`0`) a coefficient of `1`, whereas running its structure alone assigns it
`0` (as required: it has no neighbors). The pair contributions are
scattered onto the wrong atoms because the pair offsets are computed from
`torch.unique(structure_centers)` counts indexed by
`torch.unique(structure_pairs)` inverse indices. -/
theorem C1_batch_independence_violated :
    entry2 (atomRowOf cexCalc (collSpecies [stIso, stPair]) resIsoPair
      0 0) 0 0 = 1 ∧
    entry2 (atomRowOf cexCalc (collSpecies [stIso]) resIso 0 0) 0 0
      = 0 ∧
    (1 : ℚ) ≠ 0 :=
  ⟨entry_IsoPair_atom0, entry_Iso_atom0, by norm_num⟩

/-- **C6** (failing-input evaluation): on the batch `[stIso, stPair]`
the isolated atom is the center of no pair, so per the specification its
coefficient row must be all zeros; yet the computed row holds `1`,
because misaligned pair offsets scatter another structure's contribution
onto it. -/
theorem C6_zero_neighbor_rows_violated :
    (∀ p, p < (collPairs [stIso, stPair]).length →
      trueFlatCenter [stIso, stPair] p ≠ 0) ∧
    entry2 (atomRowOf cexCalc (collSpecies [stIso, stPair]) resIsoPair
      0 0) 0 0 = 1 ∧
    (1 : ℚ) ≠ 0 :=
  ⟨by decide, entry_IsoPair_atom0, by norm_num⟩
